import Mathlib

/-!
# Verification of the SMART_RESUME_PARSER core pipeline

A shallow embedding, over `List Char`, of the pure text-processing core of
the resume parser (`parser.py`, `utils.py`): text normalization
(`clean_text`), section segmentation (`split_sections`), contact, skills,
education and experience extraction, the top-level orchestrator
(`parse_resume_from_text`), and the JSON export round trip (`to_json` /
`json.loads`).

Python strings are modelled as `List Char`; Python dicts (insertion
ordered) as association lists with update-in-place-or-append insertion;
the regular expressions of the source are modelled by dedicated
backtracking matchers that follow Python `re` semantics (leftmost match,
alternation in written order, greedy quantifiers with backtracking).
-/

namespace SRP

/-- Convert a string literal to the `List Char` representation used here. -/
def s2l (s : String) : List Char := s.data

/-- Python `str` whitespace for `strip()` / regex `\s` (ASCII fragment):
space, tab, newline, carriage return, vertical tab, form feed. -/
def isPyWS (c : Char) : Bool :=
  c = ' ' || c = '\t' || c = '\n' || c = '\r' || c = Char.ofNat 11 || c = Char.ofNat 12

/-- Python `str.strip()`: remove leading and trailing whitespace. -/
def pyStrip (l : List Char) : List Char :=
  ((l.dropWhile isPyWS).reverse.dropWhile isPyWS).reverse

/-- Python `str.lower()` (ASCII fragment). -/
def pyLower (l : List Char) : List Char := l.map Char.toLower

/-- Python `str.splitlines()` line-break characters (`\r\n` handled
separately in `pySplitlines`). -/
def isLineBreak (c : Char) : Bool :=
  c = '\n' || c = '\r' || c = Char.ofNat 11 || c = Char.ofNat 12 ||
  c = Char.ofNat 28 || c = Char.ofNat 29 || c = Char.ofNat 30 || c = Char.ofNat 133 ||
  c = Char.ofNat 8232 || c = Char.ofNat 8233

/-- Helper for `pySplitlines`: `acc` is the current line, reversed. -/
def pySplitlinesAux : List Char → List Char → List (List Char)
  | acc, [] => if acc.isEmpty then [] else [acc.reverse]
  | acc, '\r' :: '\n' :: rest => acc.reverse :: pySplitlinesAux [] rest
  | acc, c :: rest =>
    if isLineBreak c then acc.reverse :: pySplitlinesAux [] rest
    else pySplitlinesAux (c :: acc) rest

/-- Python `str.splitlines()`. -/
def pySplitlines (l : List Char) : List (List Char) := pySplitlinesAux [] l

/-- `"\n".join(lines)`. -/
def joinNL : List (List Char) → List Char
  | [] => []
  | [l] => l
  | l :: rest => l ++ '\n' :: joinNL rest

/-- Substring containment (Python `needle in hay`). -/
def containsSub (needle hay : List Char) : Bool :=
  match hay with
  | [] => needle.isEmpty
  | _ :: rest => needle.isPrefixOf hay || containsSub needle rest

/-! ## Text normalizer: `clean_text` (parser.py lines 72-79) -/

/-- `text.replace("\r", "\n")`. -/
def replaceCR (l : List Char) : List Char :=
  l.map fun c => if c = '\r' then '\n' else c

/-- Space or tab, the character class of `re.sub(r"[ \t]+", " ", ...)`. -/
def isST (c : Char) : Bool := c = ' ' || c = '\t'

/-- Helper for `collapseST`: the flag records whether the previous input
character was a space or tab (i.e. we are inside a run being collapsed). -/
def collapseSTAux : Bool → List Char → List Char
  | _, [] => []
  | inRun, c :: rest =>
    if isST c then
      if inRun then collapseSTAux true rest else ' ' :: collapseSTAux true rest
    else c :: collapseSTAux false rest

/-- `re.sub(r"[ \t]+", " ", text)`: collapse each maximal run of spaces
and tabs to a single space. -/
def collapseST (l : List Char) : List Char := collapseSTAux false l

/-- Helper for `collapseNL`: `k` counts pending consecutive newlines. -/
def collapseNLAux : Nat → List Char → List Char
  | k, [] => List.replicate (min k 2) '\n'
  | k, c :: rest =>
    if c = '\n' then collapseNLAux (k + 1) rest
    else List.replicate (min k 2) '\n' ++ c :: collapseNLAux 0 rest

/-- `re.sub(r"\n{3,}", "\n\n", text)`: cap each maximal run of newlines
at two (runs of one or two are kept as they are). -/
def collapseNL (l : List Char) : List Char := collapseNLAux 0 l

/-- The control characters stripped by `clean_text`:
`[\x00-\x08\x0b\x0c\x0e-\x1f]`. -/
def isCtrl (c : Char) : Bool :=
  c.toNat ≤ 8 || (11 ≤ c.toNat && c.toNat ≤ 12) || (14 ≤ c.toNat && c.toNat ≤ 31)

/-- `re.sub(r"[\x00-\x08\x0b\x0c\x0e-\x1f]+", "", text)`. -/
def removeCtrl (l : List Char) : List Char := l.filter fun c => !isCtrl c

/-- `clean_text` (parser.py lines 72-79): replace carriage returns,
collapse space/tab runs, cap newline runs at two, strip control
characters, trim. -/
def clean_text (l : List Char) : List Char :=
  pyStrip (removeCtrl (collapseNL (collapseST (replaceCR l))))

-- sanity checks (concrete behaviour matches the Python function)
example : clean_text (s2l "  a \t b\n\n\n\nc  ") = s2l "a b\n\nc" := by decide
example : clean_text (s2l "a\r\rb") = s2l "a\n\nb" := by decide
example : clean_text (s2l "a\n\n\x00\na") = s2l "a\n\n\na" := by decide
example : clean_text (s2l "a\n\n\na") = s2l "a\n\na" := by decide

/-! ### Normal-form predicates for `clean_text` outputs -/

/-- `l` contains two adjacent space/tab characters. -/
def hasSTPair : List Char → Bool
  | a :: b :: r => (isST a && isST b) || hasSTPair (b :: r)
  | _ => false

/-- `l` contains three adjacent newlines. -/
def hasNL3 : List Char → Bool
  | a :: b :: c :: r => (a = '\n' && b = '\n' && c = '\n') || hasNL3 (b :: c :: r)
  | _ => false

/-- First two characters are both newlines. -/
def twoNL : List Char → Bool
  | a :: b :: _ => a = '\n' && b = '\n'
  | _ => false

theorem hasSTPair_cons_false_iff (c : Char) (rest : List Char) :
    hasSTPair (c :: rest) = false ↔
      (∀ d, rest.head? = some d → (isST c && isST d) = false) ∧ hasSTPair rest = false := by
  cases rest with
  | nil => simp [hasSTPair]
  | cons d r => simp [hasSTPair]

theorem hasNL3_cons_false_iff (c : Char) (rest : List Char) :
    hasNL3 (c :: rest) = false ↔
      (decide (c = '\n') && twoNL rest) = false ∧ hasNL3 rest = false := by
  cases rest with
  | nil => simp [hasNL3, twoNL]
  | cons d r =>
    cases r with
    | nil => simp [hasNL3, twoNL]
    | cons e r2 => simp [hasNL3, twoNL, Bool.and_assoc]

theorem hasSTPair_iff (l : List Char) :
    hasSTPair l = true ↔
      ∃ l1 l2 a b, isST a = true ∧ isST b = true ∧ l = l1 ++ a :: b :: l2 := by
  induction l with
  | nil =>
    simp only [hasSTPair]
    constructor
    · intro h; exact absurd h (by simp)
    · rintro ⟨l1, l2, a, b, _, _, h⟩
      have := congrArg List.length h
      simp at this
      omega
  | cons x t ih =>
    cases t with
    | nil =>
      simp only [hasSTPair]
      constructor
      · intro h; exact absurd h (by simp)
      · rintro ⟨l1, l2, a, b, _, _, h⟩
        have := congrArg List.length h
        simp at this
        omega
    | cons y r =>
      constructor
      · intro h
        have h' : (isST x = true ∧ isST y = true) ∨ hasSTPair (y :: r) = true := by
          simpa [hasSTPair] using h
        rcases h' with ⟨hx, hy⟩ | h2
        · exact ⟨[], r, x, y, hx, hy, rfl⟩
        · obtain ⟨l1, l2, a, b, ha, hb, he⟩ := ih.mp h2
          exact ⟨x :: l1, l2, a, b, ha, hb, by simp [he]⟩
      · rintro ⟨l1, l2, a, b, ha, hb, he⟩
        cases l1 with
        | nil =>
          simp only [List.nil_append, List.cons.injEq] at he
          obtain ⟨rfl, rfl, _⟩ := he
          simp [hasSTPair, ha, hb]
        | cons z l1' =>
          simp only [List.cons_append, List.cons.injEq] at he
          obtain ⟨rfl, he2⟩ := he
          have : hasSTPair (y :: r) = true := ih.mpr ⟨l1', l2, a, b, ha, hb, he2⟩
          simp [hasSTPair, this]

theorem hasNL3_iff (l : List Char) :
    hasNL3 l = true ↔ ∃ l1 l2, l = l1 ++ '\n' :: '\n' :: '\n' :: l2 := by
  induction l with
  | nil =>
    simp only [hasNL3]
    constructor
    · intro h; exact absurd h (by simp)
    · rintro ⟨l1, l2, h⟩
      have := congrArg List.length h
      simp at this
      omega
  | cons x t ih =>
    cases t with
    | nil =>
      simp only [hasNL3]
      constructor
      · intro h; exact absurd h (by simp)
      · rintro ⟨l1, l2, h⟩
        have := congrArg List.length h
        simp at this
        omega
    | cons y r =>
      cases r with
      | nil =>
        simp only [hasNL3]
        constructor
        · intro h; exact absurd h (by simp)
        · rintro ⟨l1, l2, h⟩
          have := congrArg List.length h
          simp at this
          omega
      | cons z r2 =>
        constructor
        · intro h
          have h' : ((x = '\n' ∧ y = '\n') ∧ z = '\n') ∨ hasNL3 (y :: z :: r2) = true := by
            simpa [hasNL3] using h
          rcases h' with ⟨⟨hx, hy⟩, hz⟩ | h2
          · exact ⟨[], r2, by simp [hx, hy, hz]⟩
          · obtain ⟨l1, l2, he⟩ := ih.mp h2
            exact ⟨x :: l1, l2, by simp [he]⟩
        · rintro ⟨l1, l2, he⟩
          cases l1 with
          | nil =>
            simp only [List.nil_append, List.cons.injEq] at he
            obtain ⟨rfl, rfl, rfl, _⟩ := he
            simp [hasNL3]
          | cons w l1' =>
            simp only [List.cons_append, List.cons.injEq] at he
            obtain ⟨rfl, he2⟩ := he
            have : hasNL3 (y :: z :: r2) = true := ih.mpr ⟨l1', l2, he2⟩
            simp [hasNL3, this]

theorem hasSTPair_false_of_infix {l' l : List Char} (h : l' <:+: l)
    (hl : hasSTPair l = false) : hasSTPair l' = false := by
  by_contra hx
  have hx' : hasSTPair l' = true := by
    cases hh : hasSTPair l' with
    | false => exact absurd hh hx
    | true => rfl
  obtain ⟨l1, l2, a, b, ha, hb, rfl⟩ := (hasSTPair_iff l').mp hx'
  obtain ⟨s, t, rfl⟩ := h
  have : hasSTPair (s ++ (l1 ++ a :: b :: l2) ++ t) = true :=
    (hasSTPair_iff _).mpr ⟨s ++ l1, l2 ++ t, a, b, ha, hb, by simp⟩
  rw [this] at hl
  exact absurd hl (by simp)

theorem hasNL3_false_of_infix {l' l : List Char} (h : l' <:+: l)
    (hl : hasNL3 l = false) : hasNL3 l' = false := by
  by_contra hx
  have hx' : hasNL3 l' = true := by
    cases hh : hasNL3 l' with
    | false => exact absurd hh hx
    | true => rfl
  obtain ⟨l1, l2, rfl⟩ := (hasNL3_iff l').mp hx'
  obtain ⟨s, t, rfl⟩ := h
  have : hasNL3 (s ++ (l1 ++ '\n' :: '\n' :: '\n' :: l2) ++ t) = true :=
    (hasNL3_iff _).mpr ⟨s ++ l1, l2 ++ t, by simp⟩
  rw [this] at hl
  exact absurd hl (by simp)

/-! ### Behaviour of the individual `clean_text` stages -/

theorem mem_collapseSTAux :
    ∀ (l : List Char) (b : Bool), ∀ c ∈ collapseSTAux b l, c = ' ' ∨ (c ∈ l ∧ isST c = false) := by
  intro l
  induction l with
  | nil => intro b c hc; simp [collapseSTAux] at hc
  | cons x r ih =>
    intro b c hc
    cases hST : isST x with
    | false =>
      rw [collapseSTAux] at hc
      rw [hST] at hc
      simp only [Bool.false_eq_true, if_false] at hc
      rcases List.mem_cons.mp hc with rfl | h
      · exact Or.inr ⟨List.mem_cons_self _ _, hST⟩
      · rcases ih false c h with h1 | ⟨h2, h3⟩
        · exact Or.inl h1
        · exact Or.inr ⟨List.mem_cons_of_mem _ h2, h3⟩
    | true =>
      rw [collapseSTAux] at hc
      rw [hST] at hc
      simp only [if_true] at hc
      cases b with
      | true =>
        rcases ih true c hc with h1 | ⟨h2, h3⟩
        · exact Or.inl h1
        · exact Or.inr ⟨List.mem_cons_of_mem _ h2, h3⟩
      | false =>
        rcases List.mem_cons.mp hc with rfl | h
        · exact Or.inl rfl
        · rcases ih true c h with h1 | ⟨h2, h3⟩
          · exact Or.inl h1
          · exact Or.inr ⟨List.mem_cons_of_mem _ h2, h3⟩

theorem collapseSTAux_props (l : List Char) :
    hasSTPair (collapseSTAux false l) = false ∧
    hasSTPair (collapseSTAux true l) = false ∧
    (∀ d, (collapseSTAux true l).head? = some d → isST d = false) := by
  induction l with
  | nil => exact ⟨rfl, rfl, by intro d h; simp [collapseSTAux] at h⟩
  | cons x r ih =>
    obtain ⟨ih1, ih2, ih3⟩ := ih
    cases hST : isST x with
    | false =>
      have e : ∀ b : Bool, collapseSTAux b (x :: r) = x :: collapseSTAux false r := by
        intro b; rw [collapseSTAux, hST]; simp
      refine ⟨?_, ?_, ?_⟩
      · rw [e false, hasSTPair_cons_false_iff]
        exact ⟨fun d _ => by simp [hST], ih1⟩
      · rw [e true, hasSTPair_cons_false_iff]
        exact ⟨fun d _ => by simp [hST], ih1⟩
      · intro d hd
        rw [e true] at hd
        simp only [List.head?_cons, Option.some.injEq] at hd
        exact hd ▸ hST
    | true =>
      have ef : collapseSTAux false (x :: r) = ' ' :: collapseSTAux true r := by
        rw [collapseSTAux, hST]; simp
      have et : collapseSTAux true (x :: r) = collapseSTAux true r := by
        rw [collapseSTAux, hST]; simp
      refine ⟨?_, ?_, ?_⟩
      · rw [ef, hasSTPair_cons_false_iff]
        refine ⟨fun d hd => ?_, ih2⟩
        rw [ih3 d hd]
        simp
      · rw [et]; exact ih2
      · intro d hd; rw [et] at hd; exact ih3 d hd

theorem collapseSTAux_id (l : List Char) (hTab : '\t' ∉ l) (hPair : hasSTPair l = false) :
    collapseSTAux false l = l ∧
    ((∀ d, l.head? = some d → isST d = false) → collapseSTAux true l = l) := by
  induction l with
  | nil => exact ⟨rfl, fun _ => rfl⟩
  | cons x r ih =>
    have hTab' : '\t' ∉ r := fun h => hTab (List.mem_cons_of_mem _ h)
    obtain ⟨hhd, hPair'⟩ := (hasSTPair_cons_false_iff x r).mp hPair
    obtain ⟨ih1, ih2⟩ := ih hTab' hPair'
    constructor
    · cases hST : isST x with
      | false =>
        rw [collapseSTAux, hST]
        simp only [Bool.false_eq_true, if_false]
        rw [ih1]
      | true =>
        have hx : x = ' ' := by
          have : x = ' ' ∨ x = '\t' := by simpa [isST] using hST
          rcases this with h | h
          · exact h
          · exact absurd (h ▸ List.mem_cons_self x r) hTab
        have hrhd : ∀ d, r.head? = some d → isST d = false := by
          intro d hd
          have := hhd d hd
          rw [hST] at this
          simpa using this
        rw [collapseSTAux, hST]
        simp only [if_true]
        rw [ih2 hrhd, hx]
        simp
    · intro hhead
      have hST : isST x = false := hhead x rfl
      rw [collapseSTAux, hST]
      simp only [Bool.false_eq_true, if_false]
      rw [ih1]

theorem collapseST_id (l : List Char) (hTab : '\t' ∉ l) (hPair : hasSTPair l = false) :
    collapseST l = l :=
  (collapseSTAux_id l hTab hPair).1

theorem mem_collapseNLAux :
    ∀ (l : List Char) (k : Nat), ∀ c ∈ collapseNLAux k l, c = '\n' ∨ c ∈ l := by
  intro l
  induction l with
  | nil =>
    intro k c hc
    rw [collapseNLAux] at hc
    exact Or.inl (List.eq_of_mem_replicate hc)
  | cons x r ih =>
    intro k c hc
    by_cases hx : x = '\n'
    · rw [collapseNLAux] at hc
      rw [if_pos hx] at hc
      rcases ih (k + 1) c hc with h | h
      · exact Or.inl h
      · exact Or.inr (List.mem_cons_of_mem _ h)
    · rw [collapseNLAux] at hc
      rw [if_neg hx] at hc
      rcases List.mem_append.mp hc with h | h
      · exact Or.inl (List.eq_of_mem_replicate h)
      · rcases List.mem_cons.mp h with rfl | h2
        · exact Or.inr (List.mem_cons_self _ _)
        · rcases ih 0 c h2 with h3 | h3
          · exact Or.inl h3
          · exact Or.inr (List.mem_cons_of_mem _ h3)

theorem collapseNLAux_head (l : List Char) :
    ∀ k : Nat, (collapseNLAux (k + 1) l).head? = some '\n' := by
  induction l with
  | nil =>
    intro k
    rw [collapseNLAux]
    cases k with
    | zero => rfl
    | succ k' =>
      have : min (k' + 2) 2 = 2 := by omega
      rw [this]
      rfl
  | cons x r ih =>
    intro k
    by_cases hx : x = '\n'
    · rw [collapseNLAux, if_pos hx]
      exact ih (k + 1)
    · rw [collapseNLAux, if_neg hx]
      cases k with
      | zero => rfl
      | succ k' =>
        have : min (k' + 2) 2 = 2 := by omega
        rw [this]
        rfl

theorem collapseNLAux_cap (l : List Char) :
    ∀ k : Nat, collapseNLAux (k + 2) l = collapseNLAux 2 l := by
  induction l with
  | nil =>
    intro k
    rw [collapseNLAux, collapseNLAux]
    have : min (k + 2) 2 = 2 := by omega
    rw [this]
    simp
  | cons x r ih =>
    intro k
    by_cases hx : x = '\n'
    · rw [collapseNLAux, if_pos hx, collapseNLAux, if_pos hx]
      have h1 := ih (k + 1)
      have h2 := ih 1
      rw [show k + 2 + 1 = k + 1 + 2 by omega] at h1
      rw [h1, ← h2]
    · rw [collapseNLAux, if_neg hx, collapseNLAux, if_neg hx]
      have : min (k + 2) 2 = 2 := by omega
      rw [this]
      simp

theorem hasNL3_replicate_cons (j : Nat) (hj : j ≤ 2) (x : Char) (hx : x ≠ '\n')
    (z : List Char) (hz : hasNL3 z = false) :
    hasNL3 (List.replicate j '\n' ++ x :: z) = false := by
  have hxz : hasNL3 (x :: z) = false := by
    rw [hasNL3_cons_false_iff]
    exact ⟨by simp [hx], hz⟩
  match j, hj with
  | 0, _ => simpa using hxz
  | 1, _ =>
    simp only [List.replicate, List.cons_append, List.nil_append]
    rw [hasNL3_cons_false_iff]
    refine ⟨?_, hxz⟩
    cases z with
    | nil => simp [twoNL, hx]
    | cons a z' => simp [twoNL, hx]
  | 2, _ =>
    simp only [List.replicate, List.cons_append, List.nil_append]
    rw [hasNL3_cons_false_iff]
    constructor
    · simp [twoNL, hx]
    · rw [hasNL3_cons_false_iff]
      refine ⟨?_, hxz⟩
      cases z with
      | nil => simp [twoNL, hx]
      | cons a z' => simp [twoNL, hx]

theorem hasNL3_collapseNLAux (l : List Char) :
    ∀ k : Nat, k ≤ 2 → hasNL3 (collapseNLAux k l) = false := by
  induction l with
  | nil =>
    intro k hk
    rw [collapseNLAux]
    match k, hk with
    | 0, _ => rfl
    | 1, _ => rfl
    | 2, _ => rfl
  | cons x r ih =>
    intro k hk
    by_cases hx : x = '\n'
    · rw [collapseNLAux, if_pos hx]
      by_cases hk2 : k + 1 ≤ 2
      · exact ih (k + 1) hk2
      · have hk' : k = 2 := by omega
        subst hk'
        rw [show (2 : Nat) + 1 = 1 + 2 by omega, collapseNLAux_cap]
        exact ih 2 (by omega)
    · rw [collapseNLAux, if_neg hx]
      exact hasNL3_replicate_cons (min k 2) (by omega) x hx _ (ih 0 (by omega))

theorem hasSTPair_replicateNL_append (j : Nat) (z : List Char) (hz : hasSTPair z = false) :
    hasSTPair (List.replicate j '\n' ++ z) = false := by
  induction j with
  | zero => simpa using hz
  | succ n ih =>
    rw [List.replicate_succ, List.cons_append, hasSTPair_cons_false_iff]
    exact ⟨fun d _ => by simp [isST], ih⟩

theorem collapseNLAux_zero_headST (r : List Char) (d : Char)
    (hd : (collapseNLAux 0 r).head? = some d) (hST : isST d = true) :
    ∃ d', r.head? = some d' ∧ isST d' = true := by
  cases r with
  | nil => simp [collapseNLAux] at hd
  | cons y t =>
    by_cases hy : y = '\n'
    · rw [collapseNLAux, if_pos hy] at hd
      rw [collapseNLAux_head t 0] at hd
      have : d = '\n' := by simpa using hd.symm
      rw [this] at hST
      simp [isST] at hST
    · rw [collapseNLAux, if_neg hy] at hd
      simp only [Nat.min_self, List.replicate, List.nil_append, List.head?_cons,
        Option.some.injEq] at hd
      exact ⟨y, rfl, hd ▸ hST⟩

theorem hasSTPair_collapseNLAux (l : List Char) :
    ∀ k : Nat, hasSTPair l = false → hasSTPair (collapseNLAux k l) = false := by
  induction l with
  | nil =>
    intro k _
    rw [collapseNLAux]
    simpa using hasSTPair_replicateNL_append (min k 2) [] rfl
  | cons x r ih =>
    intro k hPair
    obtain ⟨hhd, hPair'⟩ := (hasSTPair_cons_false_iff x r).mp hPair
    by_cases hx : x = '\n'
    · rw [collapseNLAux, if_pos hx]
      exact ih (k + 1) hPair'
    · rw [collapseNLAux, if_neg hx]
      apply hasSTPair_replicateNL_append
      rw [hasSTPair_cons_false_iff]
      refine ⟨?_, ih 0 hPair'⟩
      intro d hd
      cases hSTx : isST x with
      | false => simp
      | true =>
        cases hSTd : isST d with
        | false => simp
        | true =>
          obtain ⟨d', hd', hST'⟩ := collapseNLAux_zero_headST r d hd hSTd
          have := hhd d' hd'
          rw [hSTx, hST'] at this
          simp at this

theorem collapseNLAux_id (l : List Char) :
    ∀ k : Nat, hasNL3 (List.replicate k '\n' ++ l) = false →
      collapseNLAux k l = List.replicate (min k 2) '\n' ++ l := by
  induction l with
  | nil =>
    intro k h
    rw [collapseNLAux]
    by_cases hk : k ≤ 2
    · rw [Nat.min_eq_left hk]
      simp
    · exfalso
      obtain ⟨j, rfl⟩ : ∃ j, k = j + 3 := ⟨k - 3, by omega⟩
      have : hasNL3 (List.replicate (j + 3) '\n' ++ ([] : List Char)) = true := by
        apply (hasNL3_iff _).mpr
        refine ⟨List.replicate j '\n', [], ?_⟩
        rw [show j + 3 = j + 1 + 1 + 1 by omega]
        simp [List.replicate_succ']
      rw [this] at h
      exact absurd h (by simp)
  | cons x r ih =>
    intro k h
    by_cases hx : x = '\n'
    · subst hx
      have habs : List.replicate k '\n' ++ '\n' :: r = List.replicate (k + 1) '\n' ++ r := by
        rw [List.replicate_succ']
        simp
      by_cases hk : k ≤ 1
      · rw [collapseNLAux, if_pos rfl]
        rw [habs] at h
        rw [ih (k + 1) h]
        have h1 : min (k + 1) 2 = min k 2 + 1 := by omega
        rw [h1, List.replicate_succ']
        simp
      · exfalso
        obtain ⟨j, rfl⟩ : ∃ j, k = j + 2 := ⟨k - 2, by omega⟩
        have : hasNL3 (List.replicate (j + 2) '\n' ++ '\n' :: r) = true := by
          apply (hasNL3_iff _).mpr
          refine ⟨List.replicate j '\n', r, ?_⟩
          rw [show j + 2 = j + 1 + 1 by omega]
          simp [List.replicate_succ']
        rw [this] at h
        exact absurd h (by simp)
    · rw [collapseNLAux, if_neg hx]
      have hr : hasNL3 r = false := by
        apply hasNL3_false_of_infix (l := List.replicate k '\n' ++ x :: r) _ h
        exact ⟨List.replicate k '\n' ++ [x], [], by simp⟩
      rw [ih 0 (by simpa using hr)]
      simp

theorem collapseNL_id (l : List Char) (h : hasNL3 l = false) : collapseNL l = l := by
  have := collapseNLAux_id l 0 (by simpa using h)
  simpa [collapseNL] using this

/-! ### `pyStrip` lemmas -/

theorem dropWhile_suffix_ex (p : Char → Bool) (l : List Char) :
    ∃ s, s ++ l.dropWhile p = l := by
  induction l with
  | nil => exact ⟨[], rfl⟩
  | cons c r ih =>
    cases h : p c with
    | true =>
      obtain ⟨s, hs⟩ := ih
      exact ⟨c :: s, by rw [List.dropWhile_cons, h]; simpa using hs⟩
    | false => exact ⟨[], by rw [List.dropWhile_cons, h]; simp⟩

theorem head?_dropWhile_false (p : Char → Bool) (l : List Char) (d : Char)
    (h : (l.dropWhile p).head? = some d) : p d = false := by
  induction l with
  | nil => simp [List.dropWhile] at h
  | cons c r ih =>
    rw [List.dropWhile_cons] at h
    by_cases hc : p c = true
    · rw [if_pos hc] at h
      exact ih h
    · rw [if_neg hc] at h
      simp only [List.head?_cons, Option.some.injEq] at h
      subst h
      simpa using hc

theorem dropWhile_eq_self_of_head (p : Char → Bool) (l : List Char)
    (h : ∀ d, l.head? = some d → p d = false) : l.dropWhile p = l := by
  cases l with
  | nil => rfl
  | cons c r =>
    have := h c rfl
    rw [List.dropWhile_cons, this]
    simp

theorem getLast?_dropWhile (p : Char → Bool) (l : List Char)
    (hne : l.dropWhile p ≠ []) : (l.dropWhile p).getLast? = l.getLast? := by
  induction l with
  | nil => simp [List.dropWhile] at hne
  | cons c r ih =>
    rw [List.dropWhile_cons]
    by_cases hc : p c = true
    · rw [if_pos hc]
      have hne2 : r.dropWhile p ≠ [] := by
        intro e
        apply hne
        rw [List.dropWhile_cons, if_pos hc, e]
      rw [ih hne2]
      have hr : r ≠ [] := by
        intro e
        subst e
        simp [List.dropWhile] at hne2
      cases r with
      | nil => exact absurd rfl hr
      | cons d r' => rw [List.getLast?_cons_cons]
    · rw [if_neg hc]

theorem pyStrip_idem (l : List Char) : pyStrip (pyStrip l) = pyStrip l := by
  by_cases hue : (l.dropWhile isPyWS).reverse.dropWhile isPyWS = []
  · have h0 : pyStrip l = [] := by
      unfold pyStrip
      rw [hue]
      rfl
    rw [h0]
    rfl
  · have h1 : (pyStrip l).dropWhile isPyWS = pyStrip l := by
      apply dropWhile_eq_self_of_head
      intro d hd
      rw [pyStrip, List.head?_reverse] at hd
      rw [getLast?_dropWhile _ _ hue] at hd
      rw [List.getLast?_reverse] at hd
      exact head?_dropWhile_false isPyWS l d hd
    rw [pyStrip, h1]
    rw [show pyStrip l = ((l.dropWhile isPyWS).reverse.dropWhile isPyWS).reverse from rfl]
    rw [List.reverse_reverse]
    rw [dropWhile_eq_self_of_head _ _
      (fun d hd => head?_dropWhile_false isPyWS (l.dropWhile isPyWS).reverse d hd)]

theorem pyStrip_infixOf (l : List Char) : pyStrip l <:+: l := by
  obtain ⟨s1, h1⟩ := dropWhile_suffix_ex isPyWS l
  obtain ⟨s2, h2⟩ := dropWhile_suffix_ex isPyWS (l.dropWhile isPyWS).reverse
  refine ⟨s1, s2.reverse, ?_⟩
  have h3 : ((l.dropWhile isPyWS).reverse.dropWhile isPyWS).reverse ++ s2.reverse
      = l.dropWhile isPyWS := by
    have := congrArg List.reverse h2
    simpa [List.reverse_append] using this
  calc s1 ++ pyStrip l ++ s2.reverse
      = s1 ++ (pyStrip l ++ s2.reverse) := by rw [List.append_assoc]
    _ = s1 ++ l.dropWhile isPyWS := by rw [pyStrip, h3]
    _ = l := h1

theorem mem_pyStrip {c : Char} {l : List Char} (h : c ∈ pyStrip l) : c ∈ l := by
  obtain ⟨s, t, he⟩ := pyStrip_infixOf l
  rw [← he]
  simp [h]

/-! ### Remaining stage lemmas and the idempotence chain -/

theorem replaceCR_no_CR (l : List Char) : '\r' ∉ replaceCR l := by
  intro h
  rw [replaceCR, List.mem_map] at h
  obtain ⟨a, _, ha⟩ := h
  by_cases h2 : a = '\r'
  · rw [if_pos h2] at ha
    exact absurd ha (by decide)
  · rw [if_neg h2] at ha
    exact h2 ha

theorem mem_replaceCR {c : Char} {l : List Char} (h : c ∈ replaceCR l) :
    c = '\n' ∨ c ∈ l := by
  rw [replaceCR, List.mem_map] at h
  obtain ⟨a, hmem, ha⟩ := h
  by_cases h2 : a = '\r'
  · rw [if_pos h2] at ha
    exact Or.inl ha.symm
  · rw [if_neg h2] at ha
    exact Or.inr (ha ▸ hmem)

theorem replaceCR_id (l : List Char) (h : '\r' ∉ l) : replaceCR l = l := by
  induction l with
  | nil => rfl
  | cons c r ih =>
    have hc : c ≠ '\r' := fun e => h (e ▸ List.mem_cons_self c r)
    have hr : '\r' ∉ r := fun hm => h (List.mem_cons_of_mem _ hm)
    show (if c = '\r' then '\n' else c) :: replaceCR r = c :: r
    rw [if_neg hc, ih hr]

theorem removeCtrl_id (l : List Char) (h : ∀ c ∈ l, isCtrl c = false) :
    removeCtrl l = l := by
  rw [removeCtrl]
  apply List.filter_eq_self.mpr
  intro a ha
  simp [h a ha]

theorem mem_removeCtrl {c : Char} {l : List Char} (h : c ∈ removeCtrl l) : c ∈ l :=
  List.mem_of_mem_filter h

/-- All invariants of the value of `clean_text` on a control-free input. -/
theorem clean_text_invariants (l : List Char) (hctrl : ∀ c ∈ l, isCtrl c = false) :
    '\r' ∉ clean_text l ∧ '\t' ∉ clean_text l ∧
    hasSTPair (clean_text l) = false ∧ hasNL3 (clean_text l) = false ∧
    (∀ c ∈ clean_text l, isCtrl c = false) ∧ pyStrip (clean_text l) = clean_text l := by
  -- stage values
  have hw1ctrl : ∀ c ∈ replaceCR l, isCtrl c = false := by
    intro c hc
    rcases mem_replaceCR hc with rfl | h
    · decide
    · exact hctrl c h
  have hw2ctrl : ∀ c ∈ collapseST (replaceCR l), isCtrl c = false := by
    intro c hc
    rcases mem_collapseSTAux _ _ c hc with rfl | ⟨h1, _⟩
    · decide
    · exact hw1ctrl c h1
  have hw3ctrl : ∀ c ∈ collapseNL (collapseST (replaceCR l)), isCtrl c = false := by
    intro c hc
    rcases mem_collapseNLAux _ _ c hc with rfl | h
    · decide
    · exact hw2ctrl c h
  have hre : removeCtrl (collapseNL (collapseST (replaceCR l)))
      = collapseNL (collapseST (replaceCR l)) := removeCtrl_id _ hw3ctrl
  have hclean : clean_text l = pyStrip (collapseNL (collapseST (replaceCR l))) := by
    rw [clean_text, hre]
  -- no CR anywhere after replaceCR
  have hw2cr : '\r' ∉ collapseST (replaceCR l) := by
    intro hc
    rcases mem_collapseSTAux _ _ '\r' hc with h | ⟨h1, _⟩
    · exact absurd h (by decide)
    · exact replaceCR_no_CR l h1
  have hw3cr : '\r' ∉ collapseNL (collapseST (replaceCR l)) := by
    intro hc
    rcases mem_collapseNLAux _ _ '\r' hc with h | h
    · exact absurd h (by decide)
    · exact hw2cr h
  -- no tab after collapseST
  have hw2tab : '\t' ∉ collapseST (replaceCR l) := by
    intro hc
    rcases mem_collapseSTAux _ _ '\t' hc with h | ⟨_, h2⟩
    · exact absurd h (by decide)
    · exact absurd h2 (by decide)
  have hw3tab : '\t' ∉ collapseNL (collapseST (replaceCR l)) := by
    intro hc
    rcases mem_collapseNLAux _ _ '\t' hc with h | h
    · exact absurd h (by decide)
    · exact hw2tab h
  -- ST pairs
  have hw2pair : hasSTPair (collapseST (replaceCR l)) = false :=
    (collapseSTAux_props (replaceCR l)).1
  have hw3pair : hasSTPair (collapseNL (collapseST (replaceCR l))) = false :=
    hasSTPair_collapseNLAux _ 0 hw2pair
  -- NL3
  have hw3nl : hasNL3 (collapseNL (collapseST (replaceCR l))) = false :=
    hasNL3_collapseNLAux _ 0 (by omega)
  refine ⟨?_, ?_, ?_, ?_, ?_, ?_⟩
  · rw [hclean]; intro hc; exact hw3cr (mem_pyStrip hc)
  · rw [hclean]; intro hc; exact hw3tab (mem_pyStrip hc)
  · rw [hclean]; exact hasSTPair_false_of_infix (pyStrip_infixOf _) hw3pair
  · rw [hclean]; exact hasNL3_false_of_infix (pyStrip_infixOf _) hw3nl
  · rw [hclean]; intro c hc; exact hw3ctrl c (mem_pyStrip hc)
  · rw [hclean]; exact pyStrip_idem _

/-- C1 (counterexample): `clean_text` is not idempotent. On the input
`"a\n\n\x00\na"` the first pass removes the NUL after the newline-run
collapsing has already happened, leaving `"a\n\n\na"`; the second pass then
collapses the newly-formed three-newline run to two. -/
theorem clean_text_not_idempotent :
    clean_text (clean_text (s2l "a\n\n\x00\na")) ≠ clean_text (s2l "a\n\n\x00\na") := by
  decide

/-- C1 (amended): the text normalizer is idempotent on every input that
contains none of the control characters it strips (ranges 0x00-0x08,
0x0B-0x0C, 0x0E-0x1F). On such inputs the control-stripping stage is the
identity, and the output has no carriage return, no tab, no two adjacent
spaces/tabs, no three adjacent newlines and no surrounding whitespace, so
each stage of the second pass is the identity. -/
theorem clean_text_idempotent_of_ctrl_free (l : List Char)
    (hctrl : ∀ c ∈ l, isCtrl c = false) :
    clean_text (clean_text l) = clean_text l := by
  obtain ⟨hcr, htab, hpair, hnl3, hctrl', hstrip⟩ := clean_text_invariants l hctrl
  conv_lhs => rw [clean_text]
  rw [replaceCR_id _ hcr]
  rw [show collapseST (clean_text l) = clean_text l from collapseST_id _ htab hpair]
  rw [show collapseNL (clean_text l) = clean_text l from collapseNL_id _ hnl3]
  rw [removeCtrl_id _ hctrl']
  exact hstrip

/-- Witness for C1 (amended) at the concrete input `"  a \t b\n\n\n\nc  "`. -/
theorem clean_text_idempotent_witness :
    (∀ c ∈ s2l "  a \t b\n\n\n\nc  ", isCtrl c = false) ∧
    clean_text (clean_text (s2l "  a \t b\n\n\n\nc  ")) = clean_text (s2l "  a \t b\n\n\n\nc  ") :=
  ⟨by decide, clean_text_idempotent_of_ctrl_free _ (by decide)⟩

/-! ## Section segmenter: `split_sections` (parser.py lines 83-129) -/

/-- Regex `\w` (ASCII fragment): letters, digits, underscore. -/
def isWordChar (c : Char) : Bool := c.isAlphanum || c = '_'

/-- A `\b` word boundary holds against this neighbouring character
(or against the start/end of the string). -/
def boundaryOk : Option Char → Bool
  | none => true
  | some c => !isWordChar c

/-- `\b pat \b` matches at the start of `s`, where `prev` is the character
just before `s` (none at string start). -/
def matchWordAt (pat : List Char) (prev : Option Char) (s : List Char) : Bool :=
  boundaryOk prev && pat.isPrefixOf s && boundaryOk (s.drop pat.length).head?

/-- Scan all positions of `s` for a `\b pat \b` match (`re.search`). -/
def searchWBAux (pat : List Char) : Option Char → List Char → Bool
  | prev, [] => matchWordAt pat prev []
  | prev, c :: cs => matchWordAt pat prev (c :: cs) || searchWBAux pat (some c) cs

/-- `re.search(r"\b<pat>\b", s)` as a Boolean. -/
def searchWB (pat s : List Char) : Bool := searchWBAux pat none s

/-- `SECTION_HEADERS` (parser.py lines 83-95), with the surrounding `\b`
separated out into `searchWB`. -/
def SECTION_HEADERS : List (List Char) :=
  [s2l "experience", s2l "work experience", s2l "professional experience",
   s2l "education", s2l "skills", s2l "technical skills", s2l "projects",
   s2l "certifications", s2l "about", s2l "summary", s2l "objective"]

/-- `line.strip().lower()` — the normalized line used both for header
matching and as the section key. -/
def normLine (line : List Char) : List Char := pyLower (pyStrip line)

/-- A line opens a section: some header pattern matches its normalized
text (the Python loop breaks at the first match, so only existence
matters). -/
def isHeaderLine (line : List Char) : Bool :=
  SECTION_HEADERS.any fun hdr => searchWB hdr (normLine line)

/-- `header_idxs`: the `(index, line)` pairs of the header lines, in
document order. -/
def headerIdxs (text : List Char) : List (Nat × List Char) :=
  ((pySplitlines text).enum).filter fun p => isHeaderLine p.2

/-- Python dict insertion: overwrite in place if the key exists,
otherwise append (insertion order preserved). -/
def dinsert (k v : List Char) (d : List (List Char × List Char)) :
    List (List Char × List Char) :=
  if d.any fun p => p.1 = k then
    d.map fun p => if p.1 = k then (k, v) else p
  else d ++ [(k, v)]

/-- Pair each header with the start of the next header (or the total
number of lines, for the last header). -/
def consecRanges : List (Nat × List Char) → Nat → List ((Nat × List Char) × Nat)
  | [], _ => []
  | [h], n => [(h, n)]
  | h :: h2 :: rest, n => (h, h2.1) :: consecRanges (h2 :: rest) n

/-- `lines[a:b]`. -/
def sliceLines (lines : List (List Char)) (a b : Nat) : List (List Char) :=
  (lines.take b).drop a

/-- `"\n".join(lines[start:end]).strip()` — a section body. -/
def bodyOf (lines : List (List Char)) (r : (Nat × List Char) × Nat) : List Char :=
  pyStrip (joinNL (sliceLines lines (r.1.1 + 1) r.2))

/-- `split_sections` (parser.py lines 98-129). -/
def split_sections (text : List Char) : List (List Char × List Char) :=
  let lines := pySplitlines text
  match headerIdxs text with
  | [] => [(s2l "main", text)]
  | (i0, _) :: _ =>
    let ranges := consecRanges (headerIdxs text) lines.length
    let base := ranges.foldl (fun d r => dinsert (normLine r.1.2) (bodyOf lines r) d) []
    let top := pyStrip (joinNL (lines.take i0))
    if top.isEmpty then base else dinsert (s2l "top") top base

-- sanity checks (match the Python function's behaviour)
example : split_sections (s2l "x\ny") = [(s2l "main", s2l "x\ny")] := by decide
example : split_sections (s2l "John\nSkills\npython\nEducation\nBSc")
    = [(s2l "skills", s2l "python"), (s2l "education", s2l "BSc"), (s2l "top", s2l "John")] := by
  decide
example : isHeaderLine (s2l "  Technical Skills ") = true := by decide
example : isHeaderLine (s2l "Skillset") = false := by decide
example : isHeaderLine (s2l "my skills:") = true := by decide

/-! ### Structure of the section mapping -/

theorem mem_dinsert {kv : List Char × List Char} {k' v' : List Char}
    {d : List (List Char × List Char)} (h : kv ∈ dinsert k' v' d) :
    kv = (k', v') ∨ kv ∈ d := by
  rw [dinsert] at h
  by_cases hany : d.any (fun p => p.1 = k') = true
  · rw [if_pos hany] at h
    rw [List.mem_map] at h
    obtain ⟨p, hp, he⟩ := h
    by_cases hk : p.1 = k'
    · rw [if_pos hk] at he
      exact Or.inl he.symm
    · rw [if_neg hk] at he
      exact Or.inr (he ▸ hp)
  · rw [if_neg hany] at h
    rcases List.mem_append.mp h with h2 | h2
    · exact Or.inr h2
    · exact Or.inl (by simpa using h2)

theorem mem_keys_dinsert (k k' v' : List Char) (d : List (List Char × List Char)) :
    (∃ v, (k, v) ∈ dinsert k' v' d) ↔ (k = k' ∨ ∃ v, (k, v) ∈ d) := by
  constructor
  · rintro ⟨v, hv⟩
    rcases mem_dinsert hv with he | hm
    · exact Or.inl (congrArg Prod.fst he)
    · exact Or.inr ⟨v, hm⟩
  · rintro (rfl | ⟨v, hv⟩)
    · rw [dinsert]
      by_cases hany : d.any (fun p => p.1 = k) = true
      · obtain ⟨p, hp, hpk⟩ := List.any_eq_true.mp hany
        refine ⟨v', ?_⟩
        rw [if_pos hany, List.mem_map]
        exact ⟨p, hp, by rw [if_pos (by simpa using hpk)]⟩
      · exact ⟨v', by rw [if_neg hany]; simp⟩
    · rw [dinsert]
      by_cases hany : d.any (fun p => p.1 = k') = true
      · rw [if_pos hany]
        by_cases hk : k = k'
        · obtain ⟨p, hp, hpk⟩ := List.any_eq_true.mp hany
          refine ⟨v', ?_⟩
          rw [List.mem_map]
          exact ⟨p, hp, by rw [if_pos (by simpa using hpk)]; rw [hk]⟩
        · refine ⟨v, ?_⟩
          rw [List.mem_map]
          refine ⟨(k, v), hv, ?_⟩
          rw [if_neg (by simpa using hk)]
      · rw [if_neg hany]
        exact ⟨v, by simp [hv]⟩

theorem mem_foldl_dinsert {β : Type} (key : β → List Char) (val : β → List Char) :
    ∀ (rs : List β) (d : List (List Char × List Char)) (kv : List Char × List Char),
      kv ∈ rs.foldl (fun acc r => dinsert (key r) (val r) acc) d →
      kv ∈ d ∨ ∃ r ∈ rs, kv = (key r, val r) := by
  intro rs
  induction rs with
  | nil => intro d kv h; exact Or.inl h
  | cons r rest ih =>
    intro d kv h
    rw [List.foldl_cons] at h
    rcases ih (dinsert (key r) (val r) d) kv h with h2 | ⟨r', hr', he⟩
    · rcases mem_dinsert h2 with he | hm
      · exact Or.inr ⟨r, List.mem_cons_self _ _, he⟩
      · exact Or.inl hm
    · exact Or.inr ⟨r', List.mem_cons_of_mem _ hr', he⟩

theorem mem_keys_foldl_dinsert {β : Type} (key : β → List Char) (val : β → List Char) :
    ∀ (rs : List β) (d : List (List Char × List Char)) (k : List Char),
      (∃ v, (k, v) ∈ rs.foldl (fun acc r => dinsert (key r) (val r) acc) d) ↔
      ((∃ v, (k, v) ∈ d) ∨ ∃ r ∈ rs, k = key r) := by
  intro rs
  induction rs with
  | nil => intro d k; simp
  | cons r rest ih =>
    intro d k
    rw [List.foldl_cons, ih]
    rw [mem_keys_dinsert]
    constructor
    · rintro ((rfl | h) | ⟨r', hr', he⟩)
      · exact Or.inr ⟨r, List.mem_cons_self _ _, rfl⟩
      · exact Or.inl h
      · exact Or.inr ⟨r', List.mem_cons_of_mem _ hr', he⟩
    · rintro (h | ⟨r', hr', he⟩)
      · exact Or.inl (Or.inr h)
      · rcases List.mem_cons.mp hr' with rfl | hm
        · exact Or.inl (Or.inl he)
        · exact Or.inr ⟨r', hm, he⟩

theorem consecRanges_fst :
    ∀ (hs : List (Nat × List Char)) (n : Nat), (consecRanges hs n).map Prod.fst = hs := by
  intro hs
  induction hs with
  | nil => intro n; rfl
  | cons h t ih =>
    intro n
    cases t with
    | nil => rfl
    | cons h2 rest =>
      rw [consecRanges, List.map_cons, ih n]

theorem fst_le_of_mem_enumFrom {α : Type} :
    ∀ (l : List α) (n : Nat) (p : Nat × α), p ∈ l.enumFrom n → n ≤ p.1 := by
  intro l
  induction l with
  | nil => intro n p h; simp [List.enumFrom] at h
  | cons a r ih =>
    intro n p h
    rw [List.enumFrom] at h
    rcases List.mem_cons.mp h with rfl | h2
    · exact Nat.le_refl n
    · exact Nat.le_of_succ_le (ih (n + 1) p h2)

theorem fst_lt_of_mem_enumFrom {α : Type} :
    ∀ (l : List α) (n : Nat) (p : Nat × α), p ∈ l.enumFrom n → p.1 < n + l.length := by
  intro l
  induction l with
  | nil => intro n p h; simp [List.enumFrom] at h
  | cons a r ih =>
    intro n p h
    rw [List.enumFrom] at h
    rcases List.mem_cons.mp h with rfl | h2
    · simp
    · have := ih (n + 1) p h2
      simp only [List.length_cons]
      omega

theorem pairwise_enumFrom {α : Type} :
    ∀ (l : List α) (n : Nat),
      List.Pairwise (fun a b => a.1 < b.1) (l.enumFrom n) := by
  intro l
  induction l with
  | nil => intro n; simp [List.enumFrom]
  | cons a r ih =>
    intro n
    rw [List.enumFrom]
    refine List.Pairwise.cons ?_ (ih (n + 1))
    intro p hp
    exact Nat.lt_of_succ_le (fst_le_of_mem_enumFrom r (n + 1) p hp)

theorem headerIdxs_sorted (text : List Char) :
    List.Pairwise (fun a b => a.1 < b.1) (headerIdxs text) := by
  rw [headerIdxs]
  exact List.Pairwise.sublist (List.filter_sublist _) (by
    rw [List.enum]
    exact pairwise_enumFrom _ 0)

theorem headerIdxs_bounded (text : List Char) :
    ∀ p ∈ headerIdxs text, p.1 < (pySplitlines text).length := by
  intro p hp
  rw [headerIdxs] at hp
  have := fst_lt_of_mem_enumFrom (pySplitlines text) 0 p
    (List.mem_of_mem_filter hp)
  simpa using this

theorem consecRanges_props :
    ∀ (hs : List (Nat × List Char)) (n : Nat),
      List.Pairwise (fun a b => a.1 < b.1) hs →
      (∀ p ∈ hs, p.1 < n) →
      List.Pairwise (fun r1 r2 => r1.2 ≤ r2.1.1) (consecRanges hs n) ∧
      (∀ r ∈ consecRanges hs n, r.1 ∈ hs ∧ r.1.1 < r.2 ∧
        ∀ p ∈ hs, p.1 ≤ r.1.1 ∨ r.2 ≤ p.1) := by
  intro hs
  induction hs with
  | nil => intro n _ _; exact ⟨List.Pairwise.nil, by simp [consecRanges]⟩
  | cons h t ih =>
    intro n hsort hbound
    cases t with
    | nil =>
      refine ⟨List.pairwise_singleton _ _, ?_⟩
      intro r hr
      rcases List.mem_cons.mp hr with rfl | h2
      · refine ⟨List.mem_cons_self _ _, hbound h (List.mem_cons_self _ _), ?_⟩
        intro p hp
        rcases List.mem_cons.mp hp with rfl | h3
        · exact Or.inl (Nat.le_refl _)
        · simp at h3
      · simp [consecRanges] at h2
    | cons h2 rest =>
      have hsort' : List.Pairwise (fun a b => a.1 < b.1) (h2 :: rest) :=
        List.Pairwise.of_cons hsort
      have hbound' : ∀ p ∈ h2 :: rest, p.1 < n :=
        fun p hp => hbound p (List.mem_cons_of_mem _ hp)
      obtain ⟨ihpw, ihmem⟩ := ih n hsort' hbound'
      have hhead : ∀ p ∈ h2 :: rest, h.1 < p.1 :=
        fun p hp => List.rel_of_pairwise_cons hsort hp
      have hh2le : ∀ r ∈ consecRanges (h2 :: rest) n, h2.1 ≤ r.1.1 := by
        intro r hr
        obtain ⟨hr1, _, _⟩ := ihmem r hr
        rcases List.mem_cons.mp hr1 with he | hm
        · rw [he]
        · exact Nat.le_of_lt (List.rel_of_pairwise_cons hsort' hm)
      constructor
      · rw [consecRanges]
        exact List.Pairwise.cons (fun r hr => hh2le r hr) ihpw
      · intro r hr
        rw [consecRanges] at hr
        rcases List.mem_cons.mp hr with rfl | hm
        · refine ⟨List.mem_cons_self _ _, hhead h2 (List.mem_cons_self _ _), ?_⟩
          intro p hp
          rcases List.mem_cons.mp hp with rfl | h3
          · exact Or.inl (Nat.le_refl _)
          · rcases List.mem_cons.mp h3 with rfl | h4
            · exact Or.inr (Nat.le_refl _)
            · exact Or.inr (Nat.le_of_lt (List.rel_of_pairwise_cons hsort' h4))
        · obtain ⟨hr1, hr2, hr3⟩ := ihmem r hm
          refine ⟨List.mem_cons_of_mem _ hr1, hr2, ?_⟩
          intro p hp
          rcases List.mem_cons.mp hp with rfl | h3
          · exact Or.inl (Nat.le_of_lt (Nat.lt_of_lt_of_le (hhead h2 (List.mem_cons_self _ _)) (hh2le r hm)))
          · exact hr3 p h3

/-- C2: the section segmenter either finds no header line and returns the
single-entry mapping `{"main": text}` with the entire input, or finds at
least one and returns a mapping whose keys are exactly the lowercased,
trimmed header-line texts, together with the reserved key `"top"` exactly
when the pre-header text is non-empty after trimming. -/
theorem split_sections_shape (text : List Char) :
    (headerIdxs text = [] → split_sections text = [(s2l "main", text)]) ∧
    (∀ i0 l0 rest, headerIdxs text = (i0, l0) :: rest →
      ∀ k, (∃ v, (k, v) ∈ split_sections text) ↔
        ((∃ p ∈ headerIdxs text, k = normLine p.2) ∨
         (k = s2l "top" ∧ pyStrip (joinNL ((pySplitlines text).take i0)) ≠ []))) := by
  constructor
  · intro h
    rw [split_sections, h]
  · intro i0 l0 rest hhd k
    rw [split_sections, hhd]
    simp only
    rw [← hhd]
    have hkeys := mem_keys_foldl_dinsert
      (fun r : (Nat × List Char) × Nat => normLine r.1.2)
      (fun r => bodyOf (pySplitlines text) r)
      (consecRanges (headerIdxs text) (pySplitlines text).length) [] k
    have hranges : ∀ k', (∃ r ∈ consecRanges (headerIdxs text) (pySplitlines text).length,
        k' = normLine r.1.2) ↔ ∃ p ∈ headerIdxs text, k' = normLine p.2 := by
      intro k'
      constructor
      · rintro ⟨r, hr, he⟩
        refine ⟨r.1, ?_, he⟩
        rw [← consecRanges_fst (headerIdxs text) (pySplitlines text).length]
        exact List.mem_map_of_mem Prod.fst hr
      · rintro ⟨p, hp, he⟩
        rw [← consecRanges_fst (headerIdxs text) (pySplitlines text).length] at hp
        obtain ⟨r, hr, hre⟩ := List.mem_map.mp hp
        exact ⟨r, hr, hre ▸ he⟩
    by_cases htop : (pyStrip (joinNL ((pySplitlines text).take i0))).isEmpty = true
    · rw [if_pos htop]
      rw [hkeys]
      have htop' : pyStrip (joinNL ((pySplitlines text).take i0)) = [] :=
        List.isEmpty_iff.mp htop
      constructor
      · rintro (⟨v, hv⟩ | h)
        · simp at hv
        · exact Or.inl ((hranges k).mp h)
      · rintro (h | ⟨_, hne⟩)
        · exact Or.inr ((hranges k).mpr h)
        · exact absurd htop' hne
    · rw [if_neg htop]
      rw [mem_keys_dinsert, hkeys]
      have htop' : pyStrip (joinNL ((pySplitlines text).take i0)) ≠ [] := by
        intro h
        rw [h] at htop
        exact htop rfl
      constructor
      · rintro (rfl | (⟨v, hv⟩ | h))
        · exact Or.inr ⟨rfl, htop'⟩
        · simp at hv
        · exact Or.inl ((hranges k).mp h)
      · rintro (h | ⟨rfl, _⟩)
        · exact Or.inr (Or.inr ((hranges k).mpr h))
        · exact Or.inl rfl

/-- Witness for C2 at two concrete inputs, one per branch: `"x\ny"` has no
header line; `"a\nSkills\nb"` has header `"skills"` at line 1 with
non-empty pre-header text. -/
theorem split_sections_shape_witness :
    split_sections (s2l "x\ny") = [(s2l "main", s2l "x\ny")] ∧
    ((∃ v, (s2l "skills", v) ∈ split_sections (s2l "a\nSkills\nb")) ↔
      ((∃ p ∈ headerIdxs (s2l "a\nSkills\nb"), s2l "skills" = normLine p.2) ∨
       (s2l "skills" = s2l "top" ∧
        pyStrip (joinNL ((pySplitlines (s2l "a\nSkills\nb")).take 1)) ≠ []))) :=
  ⟨(split_sections_shape (s2l "x\ny")).1 (by decide),
   (split_sections_shape (s2l "a\nSkills\nb")).2 1 (s2l "Skills") [] (by decide) (s2l "skills")⟩

/-- C5 (counterexample): the joined segment bodies are `strip`ped, so a
body line can lose leading whitespace and fail to be any input line. For
`"Skills\n x"` the only body is `"x"`, but the input lines are
`["Skills", " x"]`, so the body lines are not a subsequence of the input
lines. -/
theorem split_sections_lines_not_subsequence :
    ¬ (pySplitlines (joinNL ((split_sections (s2l "Skills\n x")).map Prod.snd))).Sublist
        (pySplitlines (s2l "Skills\n x")) := by
  intro h
  have hx : s2l "x" ∈ pySplitlines (joinNL ((split_sections (s2l "Skills\n x")).map Prod.snd)) := by
    decide
  have : s2l "x" ∈ pySplitlines (s2l "Skills\n x") := h.subset hx
  revert this
  decide

/-- C5 (amended): when headers exist, every entry of the section mapping
is either the reserved `"top"` entry, holding the `strip` of the joined
lines before the first header, or arises from a header range `r`: its key
is that header line's normalized text and its body is the `strip` of the
joined input lines strictly between that header and the next (or the end
of input). The ranges have pairwise-disjoint bodies (`r1.2 ≤ r2.1.1`, and
each body slice starts at `r.1.1 + 1`), and no header line index lies
strictly inside any range, so no input line feeds two segment bodies and
no header line feeds any body — but bodies are `strip`ped, so their lines
need not literally equal input lines. -/
theorem split_sections_bodies (text : List Char) (i0 : Nat) (l0 : List Char)
    (rest : List (Nat × List Char)) (hhd : headerIdxs text = (i0, l0) :: rest) :
    (∀ kv ∈ split_sections text,
       kv = (s2l "top", pyStrip (joinNL ((pySplitlines text).take i0))) ∨
       ∃ r ∈ consecRanges (headerIdxs text) (pySplitlines text).length,
         kv = (normLine r.1.2, pyStrip (joinNL (sliceLines (pySplitlines text) (r.1.1 + 1) r.2)))) ∧
    List.Pairwise (fun r1 r2 => r1.2 ≤ r2.1.1)
      (consecRanges (headerIdxs text) (pySplitlines text).length) ∧
    (∀ r ∈ consecRanges (headerIdxs text) (pySplitlines text).length,
       r.1 ∈ headerIdxs text ∧ r.1.1 < r.2 ∧
       ∀ p ∈ headerIdxs text, p.1 ≤ r.1.1 ∨ r.2 ≤ p.1) := by
  obtain ⟨hpw, hmem⟩ := consecRanges_props (headerIdxs text) (pySplitlines text).length
    (headerIdxs_sorted text) (headerIdxs_bounded text)
  refine ⟨?_, hpw, hmem⟩
  intro kv hkv
  rw [split_sections, hhd] at hkv
  simp only at hkv
  rw [← hhd] at hkv
  by_cases htop : (pyStrip (joinNL ((pySplitlines text).take i0))).isEmpty = true
  · rw [if_pos htop] at hkv
    rcases mem_foldl_dinsert _ _ _ _ _ hkv with h | ⟨r, hr, he⟩
    · simp at h
    · exact Or.inr ⟨r, hr, he⟩
  · rw [if_neg htop] at hkv
    rcases mem_dinsert hkv with he | hm
    · exact Or.inl he
    · rcases mem_foldl_dinsert _ _ _ _ _ hm with h | ⟨r, hr, he⟩
      · simp at h
      · exact Or.inr ⟨r, hr, he⟩

/-- Witness for C5 (amended) at the concrete input `"Skills\n x"` and its
single section entry `("skills", "x")`. -/
theorem split_sections_bodies_witness :
    (s2l "skills", s2l "x") = (s2l "top", pyStrip (joinNL ((pySplitlines (s2l "Skills\n x")).take 0))) ∨
    ∃ r ∈ consecRanges (headerIdxs (s2l "Skills\n x")) (pySplitlines (s2l "Skills\n x")).length,
      (s2l "skills", s2l "x") = (normLine r.1.2,
        pyStrip (joinNL (sliceLines (pySplitlines (s2l "Skills\n x")) (r.1.1 + 1) r.2))) :=
  (split_sections_bodies (s2l "Skills\n x") 0 (s2l "Skills") [] (by decide)).1
    (s2l "skills", s2l "x") (by decide)

/-! ## Contact extractor: `extract_contact` (parser.py lines 132-160)

The three regexes are modelled as backtracking matchers following Python
`re` semantics: at each scan position alternatives and optional groups are
tried in written order (an optional item first with, then without, its
content), bounded repetitions greedily from longest to shortest, and
`finditer` takes the first position that matches, then resumes after the
match. -/

/-- `[hi, hi-1, ..., lo]` (empty when `hi < lo`): greedy preference order
for a bounded repetition. -/
def descRange (hi lo : Nat) : List Nat := (List.range' lo (hi + 1 - lo)).reverse

/-- Length of the leading digit run. -/
def digitRunLen (s : List Char) : Nat := (s.takeWhile Char.isDigit).length

/-- Regex class `[-.\s]` (the optional separator in `PHONE_RE`). -/
def isSepCh (c : Char) : Bool := c = '-' || c = '.' || isPyWS c

/-- Regex class `[\d\-.\s]` (the tail of `PHONE_RE`). -/
def isPhoneTail (c : Char) : Bool := c.isDigit || c = '-' || c = '.' || isPyWS c

/-- Consumed-length candidates for `(\+?\d{1,3}[-.\s]?)?`, in backtracking
preference order; the trailing `0` is the group-absent option. -/
def g1Cands (s : List Char) : List Nat :=
  let plusOpts : List Nat := if s.head? = some '+' then [1, 0] else [0]
  (plusOpts.flatMap fun p =>
    (descRange (min 3 (digitRunLen (s.drop p))) 1).flatMap fun d =>
      let sepOpts : List Nat :=
        match (s.drop (p + d)).head? with
        | some c => if isSepCh c then [1, 0] else [0]
        | none => [0]
      sepOpts.map fun e => p + d + e)
  ++ [0]

/-- Consumed-length candidates for `(\(?\d{2,4}\)?[-.\s]?)?`, in
backtracking preference order. -/
def g2Cands (s : List Char) : List Nat :=
  let openOpts : List Nat := if s.head? = some '(' then [1, 0] else [0]
  (openOpts.flatMap fun o =>
    (descRange (min 4 (digitRunLen (s.drop o))) 2).flatMap fun d =>
      let closeOpts : List Nat :=
        if (s.drop (o + d)).head? = some ')' then [1, 0] else [0]
      closeOpts.flatMap fun cl =>
        let sepOpts : List Nat :=
          match (s.drop (o + d + cl)).head? with
          | some c => if isSepCh c then [1, 0] else [0]
          | none => [0]
        sepOpts.map fun e => o + d + cl + e)
  ++ [0]

/-- `[\d\-.\s]{6,15}` at the start of `s`, greedy (nothing follows it in
the pattern, so the longest feasible length wins). -/
def phoneTailLen (s : List Char) : Option Nat :=
  let r := min 15 (s.takeWhile isPhoneTail).length
  if 6 ≤ r then some r else none

/-- `PHONE_RE` match length at the start of `s` (None if no match). -/
def phoneMatchAt (s : List Char) : Option Nat :=
  (g1Cands s).findSome? fun a =>
    (g2Cands (s.drop a)).findSome? fun b =>
      (phoneTailLen (s.drop (a + b))).map fun t => a + b + t

/-- `PHONE_RE.finditer` scan (fuel-driven; every match consumes at least
six characters, so `fuel = s.length` always suffices). -/
def phoneFindAux : Nat → List Char → List (List Char)
  | 0, _ => []
  | _ + 1, [] => []
  | fuel + 1, c :: rest =>
    match phoneMatchAt (c :: rest) with
    | some len => (c :: rest).take len :: phoneFindAux fuel ((c :: rest).drop len)
    | none => phoneFindAux fuel rest

/-- All `PHONE_RE` matches of `text`, in document order. -/
def PHONE_RE_finditer (text : List Char) : List (List Char) :=
  phoneFindAux text.length text

/-- `re.sub(r"\D", "", candidate)` length: the number of digits. -/
def digitCount (l : List Char) : Nat := (l.filter Char.isDigit).length

/-- First-occurrence deduplication (`dict.fromkeys`; also our model of
building a `set` of strings, whose Python iteration order is arbitrary). -/
def dedupFirstAux (seen : List (List Char)) : List (List Char) → List (List Char)
  | [] => []
  | x :: rest =>
    if x ∈ seen then dedupFirstAux seen rest
    else x :: dedupFirstAux (x :: seen) rest

/-- Remove duplicates keeping the first occurrence of each string. -/
def dedupFirst (l : List (List Char)) : List (List Char) := dedupFirstAux [] l

/-- Regex class `[\w.-]` of `EMAIL_RE`. -/
def isEmailChar (c : Char) : Bool := isWordChar c || c = '.' || c = '-'

/-- `EMAIL_RE` (`[\w\.-]+@[\w\.-]+\.\w+`) match length at the start of
`s`: greedy local part (only the full class run can precede the `@`),
greedy domain run backtracked to the last position offering `\.\w+`. -/
def emailMatchAt (s : List Char) : Option Nat :=
  let a := (s.takeWhile isEmailChar).length
  if a = 0 then none
  else if (s.drop a).head? = some '@' then
    let s2 := s.drop (a + 1)
    let b := (s2.takeWhile isEmailChar).length
    (descRange b 1).findSome? fun t =>
      if (s2.drop t).head? = some '.' then
        let w := ((s2.drop (t + 1)).takeWhile isWordChar).length
        if 1 ≤ w then some (a + 1 + t + 1 + w) else none
      else none
  else none

/-- `EMAIL_RE.findall` scan (fuel-driven as for phones; every match is
non-empty). -/
def emailFindAux : Nat → List Char → List (List Char)
  | 0, _ => []
  | _ + 1, [] => []
  | fuel + 1, c :: rest =>
    match emailMatchAt (c :: rest) with
    | some len => (c :: rest).take len :: emailFindAux fuel ((c :: rest).drop len)
    | none => emailFindAux fuel rest

/-- All `EMAIL_RE` matches of `text`, in document order. -/
def EMAIL_RE_findall (text : List Char) : List (List Char) :=
  emailFindAux text.length text

/-- Regex class of `LINKEDIN_RE`'s path: word characters, hyphen, slash. -/
def isLiChar (c : Char) : Bool := isWordChar c || c = '-' || c = '/'

/-- `LINKEDIN_RE` (optional scheme, optional `www.`, literal
`linkedin.com/`, then one or more path characters) match length at the
start of `s`. -/
def liMatchAt (s : List Char) : Option Nat :=
  let schemeOpts : List Nat :=
    (if (s2l "https://").isPrefixOf s then [8] else []) ++
    (if (s2l "http://").isPrefixOf s then [7] else []) ++ [0]
  schemeOpts.findSome? fun sc =>
    let s1 := s.drop sc
    let wwwOpts : List Nat := (if (s2l "www.").isPrefixOf s1 then [4] else []) ++ [0]
    wwwOpts.findSome? fun w =>
      let s2 := s1.drop w
      if (s2l "linkedin.com/").isPrefixOf s2 then
        let r := ((s2.drop 13).takeWhile isLiChar).length
        if 1 ≤ r then some (sc + w + 13 + r) else none
      else none

/-- `LINKEDIN_RE.finditer` scan. -/
def liFindAux : Nat → List Char → List (List Char)
  | 0, _ => []
  | _ + 1, [] => []
  | fuel + 1, c :: rest =>
    match liMatchAt (c :: rest) with
    | some len => (c :: rest).take len :: liFindAux fuel ((c :: rest).drop len)
    | none => liFindAux fuel rest

/-- All `LINKEDIN_RE` matches of `text`, in document order. -/
def LINKEDIN_RE_finditer (text : List Char) : List (List Char) :=
  liFindAux text.length text

/-- The contact record (`emails`, `phones`, `linkedin`). -/
structure Contact where
  emails : List (List Char)
  phones : List (List Char)
  linkedin : List (List Char)
deriving DecidableEq

/-- `extract_contact` (parser.py lines 140-160): emails deduplicated in
first-seen order; phone candidates stripped and kept iff their digit count
is in `[7, 15]`, collected into a set (modelled in first-seen order — the
Python `set` iteration order is arbitrary, and no claim depends on it);
linkedin matches kept in document order with duplicates. -/
def extract_contact (text : List Char) : Contact :=
  { emails := dedupFirst (EMAIL_RE_findall text)
  , phones := dedupFirst (((PHONE_RE_finditer text).map pyStrip).filter fun c =>
      decide (7 ≤ digitCount c) && decide (digitCount c ≤ 15))
  , linkedin := (LINKEDIN_RE_finditer text).map pyStrip }

-- sanity checks
example : (extract_contact (s2l "mail john.doe@example.com ok")).emails
    = [s2l "john.doe@example.com"] := by decide
example : (extract_contact (s2l "abc 1234567 def")).phones = [s2l "1234567"] := by decide
example : (extract_contact (s2l "abc 123456 def")).phones = [] := by decide
example : (extract_contact (s2l "see https://linkedin.com/in/jd now")).linkedin
    = [s2l "https://linkedin.com/in/jd"] := by decide
example : (extract_contact (s2l "+1 555-123-4567")).phones = [s2l "+1 555-123-4567"] := by decide
-- cross-checked against CPython `re` on the same inputs:
example : PHONE_RE_finditer (s2l "999999999-999999-1234567")
    = [s2l "999999999-999999-12345"] := by decide
example : PHONE_RE_finditer (s2l "(123) 456-7890 x") = [s2l "(123) 456-7890 "] := by decide
example : PHONE_RE_finditer (s2l "12-34-56-78-90-12-34-56")
    = [s2l "12-34-56-78-90-12-34-"] := by decide
example : PHONE_RE_finditer (s2l "a 123456789012345678 b")
    = [s2l " 12345678901234"] := by decide
example : EMAIL_RE_findall (s2l "mail john.doe@example.com ok a-b@c.d.e- f@g")
    = [s2l "john.doe@example.com", s2l "a-b@c.d.e"] := by decide
example : LINKEDIN_RE_finditer (s2l "see https://linkedin.com/in/jd now www.linkedin.com/x linkedin.com/")
    = [s2l "https://linkedin.com/in/jd", s2l "www.linkedin.com/x"] := by decide

/-- Lengths of the maximal digit runs of `l`, in order. -/
def digitRunsAux : Nat → List Char → List Nat
  | k, [] => if k = 0 then [] else [k]
  | k, c :: rest =>
    if c.isDigit then digitRunsAux (k + 1) rest
    else (if k = 0 then [] else [k]) ++ digitRunsAux 0 rest

/-- Lengths of the maximal digit runs of `l`, in order. -/
def digitRuns (l : List Char) : List Nat := digitRunsAux 0 l

theorem mem_dedupFirstAux (x : List Char) :
    ∀ (l seen : List (List Char)), x ∈ dedupFirstAux seen l ↔ (x ∈ l ∧ x ∉ seen) := by
  intro l
  induction l with
  | nil => intro seen; simp [dedupFirstAux]
  | cons h rest ih =>
    intro seen
    rw [dedupFirstAux]
    by_cases hh : h ∈ seen
    · rw [if_pos hh, ih]
      constructor
      · rintro ⟨h1, h2⟩
        exact ⟨List.mem_cons_of_mem _ h1, h2⟩
      · rintro ⟨h1, h2⟩
        rcases List.mem_cons.mp h1 with rfl | h3
        · exact absurd hh h2
        · exact ⟨h3, h2⟩
    · rw [if_neg hh]
      constructor
      · intro hm
        rcases List.mem_cons.mp hm with rfl | h3
        · exact ⟨List.mem_cons_self _ _, hh⟩
        · obtain ⟨h4, h5⟩ := (ih (h :: seen)).mp h3
          exact ⟨List.mem_cons_of_mem _ h4,
            fun hs => h5 (List.mem_cons_of_mem _ hs)⟩
      · rintro ⟨h1, h2⟩
        rcases List.mem_cons.mp h1 with rfl | h3
        · exact List.mem_cons_self _ _
        · by_cases hx : x = h
          · exact hx ▸ List.mem_cons_self _ _
          · exact List.mem_cons_of_mem _ ((ih (h :: seen)).mpr
              ⟨h3, fun hs => (List.mem_cons.mp hs).elim hx h2⟩)

theorem mem_dedupFirst (x : List Char) (l : List (List Char)) :
    x ∈ dedupFirst l ↔ x ∈ l := by
  rw [dedupFirst, mem_dedupFirstAux]
  simp

/-- C7 (amended): a scanned phone candidate (stripped `PHONE_RE` match) is
in the phones output iff its digit count is between 7 and 15; hence a
string of exactly 6 digits is never in the output. The 6-vs-7 boundary
behaves as specified in simple surroundings: a lone 6-digit run yields no
candidate and a lone 7-digit run is returned verbatim. (In adversarial
surroundings a 7-digit run can be swallowed by a longer rejected
candidate — see the counterexample.) -/
theorem phones_filter (text : List Char) (c : List Char)
    (hc : c ∈ (PHONE_RE_finditer text).map pyStrip) :
    (c ∈ (extract_contact text).phones ↔ 7 ≤ digitCount c ∧ digitCount c ≤ 15) ∧
    (digitCount c = 6 → c ∉ (extract_contact text).phones) ∧
    (extract_contact (s2l "abc 123456 def")).phones = [] ∧
    (extract_contact (s2l "abc 1234567 def")).phones = [s2l "1234567"] := by
  have hmain : c ∈ (extract_contact text).phones ↔
      7 ≤ digitCount c ∧ digitCount c ≤ 15 := by
    show c ∈ dedupFirst (((PHONE_RE_finditer text).map pyStrip).filter _) ↔ _
    rw [mem_dedupFirst, List.mem_filter]
    constructor
    · rintro ⟨_, hp⟩
      simpa using hp
    · intro hp
      exact ⟨hc, by simpa using hp⟩
  refine ⟨hmain, ?_, by decide, by decide⟩
  intro h6 hmem
  have := hmain.mp hmem
  omega

/-- Witness for C7 (amended) at the candidate `"1234567"` of the text
`"abc 1234567 def"`. -/
theorem phones_filter_witness :
    (s2l "1234567" ∈ (extract_contact (s2l "abc 1234567 def")).phones ↔
      7 ≤ digitCount (s2l "1234567") ∧ digitCount (s2l "1234567") ≤ 15) ∧
    (digitCount (s2l "1234567") = 6 →
      s2l "1234567" ∉ (extract_contact (s2l "abc 1234567 def")).phones) ∧
    (extract_contact (s2l "abc 123456 def")).phones = [] ∧
    (extract_contact (s2l "abc 1234567 def")).phones = [s2l "1234567"] :=
  phones_filter (s2l "abc 1234567 def") (s2l "1234567") (by decide)

/-- C7 (counterexample): the text `"999999999-999999-1234567"` contains a
maximal digit run of exactly 7 digits, but the phones output is empty:
the scanner's first (greedy) match `"999999999-999999-12345"` has 20
digits and is rejected by the 7-15 filter, and the leftover `"67"` cannot
match, so the 7-digit run yields no returned candidate. -/
theorem phones_seven_run_not_returned :
    7 ∈ digitRuns (s2l "999999999-999999-1234567") ∧
    (extract_contact (s2l "999999999-999999-1234567")).phones = [] := by
  constructor
  · decide
  · decide

/-! ## Skill extractor: `extract_skills` (parser.py lines 163-196)

The spaCy `PhraseMatcher` path is optional (`nlp` may be `None`); the
always-available fallback path — case-insensitive substring containment
for each listed skill phrase — is what we model (the import-time state
with spaCy unavailable). -/

/-- `DEFAULT_SKILLS` (parser.py lines 165-170). -/
def DEFAULT_SKILLS : List (List Char) :=
  [s2l "python", s2l "java", s2l "c++", s2l "c#", s2l "javascript", s2l "react",
   s2l "node.js", s2l "django", s2l "flask", s2l "sql", s2l "postgresql",
   s2l "mysql", s2l "aws", s2l "azure", s2l "gcp", s2l "docker",
   s2l "kubernetes", s2l "git", s2l "linux", s2l "nlp", s2l "spaCy",
   s2l "pandas", s2l "numpy", s2l "tensorflow", s2l "pytorch",
   s2l "scikit-learn", s2l "excel", s2l "tableau", s2l "power bi"]

/-- Lexicographic comparison by code point (Python string `<=`). -/
def lexLe : List Char → List Char → Bool
  | [], _ => true
  | _ :: _, [] => false
  | a :: as1, b :: bs =>
    if a.toNat < b.toNat then true
    else if b.toNat < a.toNat then false
    else lexLe as1 bs

/-- Insert into a sorted list (for `sorted`). -/
def insertSorted (x : List Char) : List (List Char) → List (List Char)
  | [] => [x]
  | y :: rest => if lexLe x y then x :: y :: rest else y :: insertSorted x rest

/-- Python `sorted` on strings (insertion sort; stable, by code point). -/
def sortLex : List (List Char) → List (List Char)
  | [] => []
  | x :: rest => insertSorted x (sortLex rest)

/-- `extract_skills` with the default list, fallback (substring) path:
the set of lowercased listed phrases contained in the lowercased text,
sorted. -/
def extract_skills (text : List Char) : List (List Char) :=
  sortLex (dedupFirst
    ((DEFAULT_SKILLS.filter fun s => containsSub (pyLower s) (pyLower text)).map pyLower))

-- sanity checks
example : extract_skills (s2l "I know PYTHON and pandas")
    = [s2l "pandas", s2l "python"] := by decide
example : extract_skills (s2l "pythonic code") = [s2l "python"] := by decide
example : extract_skills (s2l "nothing here") = [] := by decide

/-! ## Orchestrator skills-section selection (parser.py lines 281-288) -/

/-- The first value of the mapping whose key contains `needle` as a
substring (`for k in sections: if needle in k: ...; break`). -/
def firstValWithSub (needle : List Char) : List (List Char × List Char) → Option (List Char)
  | [] => none
  | (k, v) :: rest =>
    if containsSub needle k then some v else firstValWithSub needle rest

/-- The text fed to the skill extractor by `parse_resume_from_text`
(parser.py lines 281-288): the first section whose key contains
`"skill"`, except that the Python code falls back to the full cleaned
text whenever `skills_text` is falsy — i.e. also when that section's body
is the empty string. -/
def skillsTextOf (text : List Char) : List Char :=
  let t := clean_text text
  let s0 := (firstValWithSub (s2l "skill") (split_sections t)).getD []
  if s0.isEmpty then t else s0

/-- C4 (counterexample): in `"python\nSkills"` the section `"skills"`
exists (with empty body, as `"Skills"` is the last line), yet the skill
extractor is fed the full cleaned text, which is non-empty — contradicting
"the full normalized text is used only when no section key contains

`skill`". -/
theorem skills_text_empty_section_fallback :
    firstValWithSub (s2l "skill") (split_sections (clean_text (s2l "python\nSkills")))
      = some [] ∧
    skillsTextOf (s2l "python\nSkills") = clean_text (s2l "python\nSkills") ∧
    clean_text (s2l "python\nSkills") ≠ [] := by
  refine ⟨by decide, by decide, by decide⟩

/-- C4 (amended): the Skill Extractor is fed the body of the
first-inserted section whose key contains `"skill"` when that body is
non-empty; the full cleaned text is used when no such key exists or when
that section's body is empty (the falsy-string fallback). -/
theorem skillsTextOf_spec (text : List Char) :
    (firstValWithSub (s2l "skill") (split_sections (clean_text text)) = none →
      skillsTextOf text = clean_text text) ∧
    (∀ v, firstValWithSub (s2l "skill") (split_sections (clean_text text)) = some v →
      (v ≠ [] → skillsTextOf text = v) ∧
      (v = [] → skillsTextOf text = clean_text text)) := by
  constructor
  · intro h
    rw [skillsTextOf, h]
    rfl
  · intro v h
    constructor
    · intro hv
      rw [skillsTextOf, h]
      simp only [Option.getD_some]
      rw [if_neg (by simpa [List.isEmpty_iff] using hv)]
    · intro hv
      rw [skillsTextOf, h, hv]
      rfl

/-- Witness for C4 (amended): at `"hello"` (no skills key) the full
cleaned text is used; at `"Skills\npython"` the non-empty skills body is
used. -/
theorem skillsTextOf_spec_witness :
    skillsTextOf (s2l "hello") = clean_text (s2l "hello") ∧
    skillsTextOf (s2l "Skills\npython") = s2l "python" :=
  ⟨(skillsTextOf_spec (s2l "hello")).1 (by decide),
   ((skillsTextOf_spec (s2l "Skills\npython")).2 (s2l "python") (by decide)).1 (by decide)⟩

/-! ## Education extractor: `extract_education` (parser.py lines 199-223) -/

/-- `EDU_KEYWORDS` (parser.py lines 200-203); the escaped dots of the
source regexes are literal dots, so each pattern is a plain substring. -/
def EDU_KEYWORDS : List (List Char) :=
  [s2l "bachelor", s2l "master", s2l "b.a.", s2l "b.sc.", s2l "m.sc.", s2l "phd",
   s2l "b.tech", s2l "m.tech", s2l "bs", s2l "ms", s2l "mba", s2l "associate",
   s2l "high school", s2l "secondary school"]

/-- `any(re.search(k, low) for k in EDU_KEYWORDS)`. -/
def eduLineMatches (low : List Char) : Bool :=
  EDU_KEYWORDS.any fun k => containsSub k low

/-- `(19|20)\d{2}` matches at the start of `s`; returns the four matched
characters. -/
def yearAt (s : List Char) : Option (List Char) :=
  match s with
  | a :: b :: c :: d :: _ =>
    if ((a = '1' && b = '9') || (a = '2' && b = '0')) && c.isDigit && d.isDigit
    then some [a, b, c, d] else none
  | _ => none

/-- `re.search(r"(19|20)\d{2}", s)`: the leftmost match. -/
def yearSearch : List Char → Option (List Char)
  | [] => none
  | c :: rest =>
    match yearAt (c :: rest) with
    | some y => some y
    | none => yearSearch rest

/-- Helper for `splitCommaHyphen`; `acc` is the current part, reversed. -/
def splitCHAux : List Char → List Char → List (List Char)
  | acc, [] => [acc.reverse]
  | acc, c :: rest =>
    if c = ',' || c = '-' then acc.reverse :: splitCHAux [] rest
    else splitCHAux (c :: acc) rest

/-- `re.split(r",|-", line)`: split at every comma or hyphen. -/
def splitCommaHyphen (l : List Char) : List (List Char) := splitCHAux [] l

/-- One education entry (`degree`, `institution`, `year`, `raw`). -/
structure EduEntry where
  degree : List Char
  institution : List Char
  year : List Char
  raw : List Char
deriving DecidableEq

/-- The trimmed non-empty comma/hyphen-separated parts of a line. -/
def eduParts (line : List Char) : List (List Char) :=
  ((splitCommaHyphen line).map pyStrip).filter fun p => !p.isEmpty

/-- The entry produced for one line of the education section, if its
lowercase form contains a degree keyword (parser.py lines 212-222). -/
def eduEntryOfLine (line : List Char) : Option EduEntry :=
  if eduLineMatches (pyLower line) then
    some { degree := (eduParts line).headD (pyStrip line)
         , institution := (eduParts line).getD 1 []
         , year := (yearSearch line).getD []
         , raw := pyStrip line }
  else none

/-- `extract_education` (parser.py lines 206-223): one entry per matching
line, in document order. -/
def extract_education (st : List Char) : List EduEntry :=
  (pySplitlines st).filterMap eduEntryOfLine

-- sanity check
example : extract_education (s2l "no match here") = [] := by decide

/-- C8: on `"Bachelor of Science, University X, 2019"` the education
extractor returns exactly the entry with degree `"Bachelor of Science"`,
institution `"University X"` and year `"2019"`; and in general every
returned entry comes from a keyword-matching line, with degree the first
trimmed non-empty comma/hyphen-separated part (the stripped line itself if
there is none), institution the second such part if present (else empty),
and year the leftmost `(19|20)\d{2}` match (else empty). -/
theorem extract_education_spec :
    extract_education (s2l "Bachelor of Science, University X, 2019")
      = [{ degree := s2l "Bachelor of Science", institution := s2l "University X",
           year := s2l "2019", raw := s2l "Bachelor of Science, University X, 2019" }] ∧
    ∀ (st : List Char) (e : EduEntry), e ∈ extract_education st →
      ∃ line ∈ pySplitlines st, eduLineMatches (pyLower line) = true ∧
        e.degree = (eduParts line).headD (pyStrip line) ∧
        e.institution = (eduParts line).getD 1 [] ∧
        e.year = (yearSearch line).getD [] := by
  constructor
  · decide
  · intro st e he
    rw [extract_education] at he
    obtain ⟨line, hline, hfe⟩ := List.mem_filterMap.mp he
    refine ⟨line, hline, ?_⟩
    rw [eduEntryOfLine] at hfe
    by_cases hm : eduLineMatches (pyLower line) = true
    · rw [if_pos hm] at hfe
      obtain rfl := Option.some.inj hfe
      exact ⟨hm, rfl, rfl, rfl⟩
    · rw [if_neg hm] at hfe
      exact absurd hfe (by simp)

/-- Witness for C8's general clause at the concrete line
`"Bachelor of Science, University X, 2019"`. -/
theorem extract_education_spec_witness :
    ∃ line ∈ pySplitlines (s2l "Bachelor of Science, University X, 2019"),
      eduLineMatches (pyLower line) = true ∧
      (s2l "Bachelor of Science" : List Char) = (eduParts line).headD (pyStrip line) ∧
      (s2l "University X" : List Char) = (eduParts line).getD 1 [] ∧
      (s2l "2019" : List Char) = (yearSearch line).getD [] :=
  extract_education_spec.2 (s2l "Bachelor of Science, University X, 2019")
    { degree := s2l "Bachelor of Science", institution := s2l "University X",
      year := s2l "2019", raw := s2l "Bachelor of Science, University X, 2019" }
    (by decide)

/-! ## Experience extractor: `parse_experience` (parser.py lines 226-269)

`DATE_RANGE_RE` has 15 capture groups: (1) the whole month-phrase-to-year
alternative, (2) the month alternation, (3)-(13) the optional month-name
suffixes (`uary`, `ruary`, `ch`, `il`, `e`, `y`, `ust`, `tember`, `ober`,
`ember`, `ember`), (14) the bare-year alternative, (15) its `19`/`20`
prefix; the `present` alternative captures nothing. `findall` therefore
returns 15-tuples whose unmatched groups are empty strings. -/

/-- The month alternation of `DATE_RANGE_RE`, in written order: 3-letter
prefix, optional-suffix text, and the suffix's capture-group number
(0 when the month has no suffix group). -/
def monthTable : List (List Char × List Char × Nat) :=
  [(s2l "jan", (s2l "uary", 3)), (s2l "feb", (s2l "ruary", 4)),
   (s2l "mar", (s2l "ch", 5)), (s2l "apr", (s2l "il", 6)),
   (s2l "may", ([], 0)), (s2l "jun", (s2l "e", 7)), (s2l "jul", (s2l "y", 8)),
   (s2l "aug", (s2l "ust", 9)), (s2l "sep", (s2l "tember", 10)),
   (s2l "oct", (s2l "ober", 11)), (s2l "nov", (s2l "ember", 12)),
   (s2l "dec", (s2l "ember", 13))]

/-- Regex class `[\w\.\s,-]` (the filler between month and year). -/
def isDateClass (c : Char) : Bool :=
  isWordChar c || c = '.' || isPyWS c || c = ',' || c = '-'

/-- Four digits at the start of `s`. -/
def isDigit4 (s : List Char) : Bool :=
  match s with
  | a :: b :: c :: d :: _ => a.isDigit && b.isDigit && c.isDigit && d.isDigit
  | _ => false

/-- The 15-group tuple for a month-alternative match: group 1 is the whole
match, group 2 the month text, group `sufIdx` (when non-zero) the matched
suffix; all other groups are empty. -/
def groupsOfMonth (s : List Char) (total m sufIdx sufLen : Nat) : List (List Char) :=
  (List.range' 1 15).map fun g =>
    if g = 1 then s.take total
    else if g = 2 then s.take m
    else if g = sufIdx then (s.drop 3).take sufLen
    else []

/-- Match of `DATE_RANGE_RE`'s first alternative (month phrase up to a
4-digit year) at the start of `s`: month prefix (suffix-greedy), then the
greedy filler backtracked to the last position followed by four digits. -/
def drAlt1At (s : List Char) : Option (Nat × List (List Char)) :=
  monthTable.findSome? fun mt =>
    if mt.1.isPrefixOf (pyLower s) then
      let opts : List (Nat × Nat) :=
        (if !mt.2.1.isEmpty && (mt.1 ++ mt.2.1).isPrefixOf (pyLower s)
         then [(3 + mt.2.1.length, mt.2.1.length)] else []) ++ [(3, 0)]
      opts.findSome? fun mo =>
        let run := ((s.drop mo.1).takeWhile isDateClass).length
        ((descRange run 0).findSome? fun L =>
          if isDigit4 (s.drop (mo.1 + L)) then some L else none).map fun L =>
          (mo.1 + L + 4,
           groupsOfMonth s (mo.1 + L + 4) mo.1 (if mo.2 = 0 then 0 else mt.2.2) mo.2)
    else none

/-- Match of `DATE_RANGE_RE`'s second alternative (`(19|20)\d{2}`) at the
start of `s`. -/
def drAlt2At (s : List Char) : Option (Nat × List (List Char)) :=
  match s with
  | a :: b :: c :: d :: _ =>
    if ((a = '1' && b = '9') || (a = '2' && b = '0')) && c.isDigit && d.isDigit then
      some (4, (List.range' 1 15).map fun g =>
        if g = 14 then [a, b, c, d] else if g = 15 then [a, b] else [])
    else none
  | _ => none

/-- `DATE_RANGE_RE` match at the start of `s`: the three alternatives in
written order (month phrase, bare year, `present`), case-insensitive. -/
def drMatchAt (s : List Char) : Option (Nat × List (List Char)) :=
  match drAlt1At s with
  | some r => some r
  | none =>
    match drAlt2At s with
    | some r => some r
    | none =>
      if (s2l "present").isPrefixOf (pyLower s) then some (7, List.replicate 15 [])
      else none

/-- `DATE_RANGE_RE.search` as a Boolean: some position matches. -/
def drSearch : List Char → Bool
  | [] => false
  | c :: rest => (drMatchAt (c :: rest)).isSome || drSearch rest

/-- `DATE_RANGE_RE.findall` scan (fuel-driven; every match consumes at
least four characters, so `fuel = s.length` always suffices). -/
def drFindAux : Nat → List Char → List (List (List Char))
  | 0, _ => []
  | _ + 1, [] => []
  | fuel + 1, c :: rest =>
    match drMatchAt (c :: rest) with
    | some r => r.2 :: drFindAux fuel ((c :: rest).drop r.1)
    | none => drFindAux fuel rest

/-- All `DATE_RANGE_RE` group tuples of `s`, in document order. -/
def DATE_RANGE_RE_findall (s : List Char) : List (List (List Char)) :=
  drFindAux s.length s

-- cross-checked against CPython `re` on the same inputs:
example : DATE_RANGE_RE_findall (s2l "Engineer, Acme (2020-Present)")
    = [[[], [], [], [], [], [], [], [], [], [], [], [], [], s2l "2020", s2l "20"],
       [[], [], [], [], [], [], [], [], [], [], [], [], [], [], []]] := by decide
example : DATE_RANGE_RE_findall (s2l "January 2019 to March 2021")
    = [[s2l "January 2019 to March 2021", s2l "January", s2l "uary",
        [], [], [], [], [], [], [], [], [], [], [], []]] := by decide
example : DATE_RANGE_RE_findall (s2l "may2020june")
    = [[s2l "may2020", s2l "may", [], [], [], [], [], [], [], [], [], [], [], [], []]] := by
  decide
example : DATE_RANGE_RE_findall (s2l "sept 2020")
    = [[s2l "sept 2020", s2l "sep", [], [], [], [], [], [], [], [], [], [], [], [], []]] := by
  decide
example : DATE_RANGE_RE_findall (s2l "jan x 20 2021 y")
    = [[s2l "jan x 20 2021", s2l "jan", [], [], [], [], [], [], [], [], [], [], [], [], []]] := by
  decide
example : DATE_RANGE_RE_findall (s2l "Senior, Acme (Jan 2020 - Present)")
    = [[s2l "Jan 2020", s2l "Jan", [], [], [], [], [], [], [], [], [], [], [], [], []],
       [[], [], [], [], [], [], [], [], [], [], [], [], [], [], []]] := by decide
example : drSearch (s2l "- did X") = false := by decide

/-- One experience entry (`title_company`, `dates`, `details`,
`date_tokens`). -/
structure ExpEntry where
  title_company : List Char
  dates : List (List (List Char))
  details : List (List Char)
  date_tokens : List (List Char)
deriving DecidableEq

/-- `re.search(r"(19|20)\d{2}|present", part, re.IGNORECASE)`: the filter
of the `date_tokens` post-pass. -/
def yearOrPresent (s : List Char) : Bool :=
  (yearSearch s).isSome || containsSub (s2l "present") (pyLower s)

/-- One step of the `parse_experience` line loop (parser.py lines
241-255): a dated line closes the current entry and opens a new one; an
undated line becomes the first entry's title or a detail line. -/
def expStep (acc : List ExpEntry × Option ExpEntry) (line : List Char) :
    List ExpEntry × Option ExpEntry :=
  if drSearch line then
    match acc.2 with
    | some e => (acc.1 ++ [e], some ⟨line, DATE_RANGE_RE_findall line, [], []⟩)
    | none => (acc.1, some ⟨line, DATE_RANGE_RE_findall line, [], []⟩)
  else
    match acc.2 with
    | none => (acc.1, some ⟨line, [], [], []⟩)
    | some e => (acc.1, some { e with details := e.details ++ [line] })

/-- The post-pass (parser.py lines 259-268): re-scan `title_company` and
keep each group string containing a `19xx`/`20xx` year or `present`. -/
def postTokens (e : ExpEntry) : ExpEntry :=
  { e with date_tokens :=
      ((DATE_RANGE_RE_findall e.title_company).flatMap id).filter yearOrPresent }

/-- `parse_experience` (parser.py lines 233-269). -/
def parse_experience (st : List Char) : List ExpEntry :=
  let lines := ((pySplitlines st).map pyStrip).filter fun l => !l.isEmpty
  let acc := lines.foldl expStep ([], none)
  (acc.1 ++ (match acc.2 with | some e => [e] | none => [])).map postTokens

-- sanity check of the date_tokens post-pass
example : (parse_experience (s2l "Engineer, Acme (2020-Present)")).map ExpEntry.date_tokens
    = [[s2l "2020"]] := by decide
example : (parse_experience (s2l "Senior (Jan 2020 - Present)")).map ExpEntry.date_tokens
    = [[s2l "Jan 2020"]] := by decide

/-- C6: on the section text
`"Engineer, Acme (2020-Present)\n- did X\nIntern, Beta (2018-2019)\n- did Y"`
the experience extractor returns exactly two entries: the first titled
`"Engineer, Acme (2020-Present)"` with details `["- did X"]`, the second
titled `"Intern, Beta (2018-2019)"` with details `["- did Y"]`. -/
theorem parse_experience_boundary :
    (parse_experience
        (s2l "Engineer, Acme (2020-Present)\n- did X\nIntern, Beta (2018-2019)\n- did Y")).length
      = 2 ∧
    (parse_experience
        (s2l "Engineer, Acme (2020-Present)\n- did X\nIntern, Beta (2018-2019)\n- did Y")).map
        (fun e => (e.title_company, e.details))
      = [(s2l "Engineer, Acme (2020-Present)", [s2l "- did X"]),
         (s2l "Intern, Beta (2018-2019)", [s2l "- did Y"])] := by
  constructor
  · decide
  · decide

/-- The lowercased month names (full and 3-letter) of `DATE_RANGE_RE`. -/
def monthNamesLower : List (List Char) :=
  [s2l "january", s2l "february", s2l "march", s2l "april", s2l "may",
   s2l "june", s2l "july", s2l "august", s2l "september", s2l "october",
   s2l "november", s2l "december",
   s2l "jan", s2l "feb", s2l "mar", s2l "apr", s2l "jun", s2l "jul",
   s2l "aug", s2l "sep", s2l "oct", s2l "nov", s2l "dec"]

theorem yearAt_first (s : List Char) (y : List Char) (h : yearAt s = some y) :
    s.head? = some '1' ∨ s.head? = some '2' := by
  match s with
  | [] => simp [yearAt] at h
  | [a] => simp [yearAt] at h
  | [a, b] => simp [yearAt] at h
  | [a, b, c] => simp [yearAt] at h
  | a :: b :: c :: d :: t =>
    rw [yearAt] at h
    split at h
    · rename_i hc
      simp only [Bool.and_eq_true, Bool.or_eq_true, decide_eq_true_eq] at hc
      rcases hc.1.1 with ⟨ha, _⟩ | ⟨ha, _⟩
      · exact Or.inl (by simp [ha])
      · exact Or.inr (by simp [ha])
    · exact absurd h (by simp)

theorem yearSearch_digit (s : List Char) (y : List Char) (h : yearSearch s = some y) :
    '1' ∈ s ∨ '2' ∈ s := by
  induction s with
  | nil => simp [yearSearch] at h
  | cons c rest ih =>
    rw [yearSearch] at h
    cases hy : yearAt (c :: rest) with
    | some y' =>
      rcases yearAt_first (c :: rest) y' hy with h1 | h1 <;>
        simp only [List.head?_cons, Option.some.injEq] at h1
      · exact Or.inl (h1 ▸ List.mem_cons_self c rest)
      · exact Or.inr (h1 ▸ List.mem_cons_self c rest)
    | none =>
      rw [hy] at h
      rcases ih h with h1 | h1
      · exact Or.inl (List.mem_cons_of_mem _ h1)
      · exact Or.inr (List.mem_cons_of_mem _ h1)

/-- C10: every string in a returned entry's `date_tokens` passes the
post-pass filter — it contains a `19xx`/`20xx` year or the word `present`
(case-insensitively) — and consequently is never a bare month name. -/
theorem date_tokens_spec (st : List Char) (e : ExpEntry)
    (he : e ∈ parse_experience st) (tok : List Char) (ht : tok ∈ e.date_tokens) :
    yearOrPresent tok = true ∧ pyLower tok ∉ monthNamesLower := by
  have htok : yearOrPresent tok = true := by
    rw [parse_experience] at he
    obtain ⟨e', _, rfl⟩ := List.mem_map.mp he
    exact List.of_mem_filter ht
  refine ⟨htok, ?_⟩
  intro hmem
  have hall : ∀ m ∈ monthNamesLower,
      '1' ∉ m ∧ '2' ∉ m ∧ containsSub (s2l "present") m = false := by decide
  obtain ⟨h1, h2, h3⟩ := hall (pyLower tok) hmem
  rcases Bool.or_eq_true_iff.mp (by simpa [yearOrPresent] using htok) with hy | hp
  · obtain ⟨y, hy'⟩ := Option.isSome_iff_exists.mp hy
    rcases yearSearch_digit tok y hy' with hd | hd
    · exact h1 (by
        rw [pyLower, List.mem_map]
        exact ⟨'1', hd, by decide⟩)
    · exact h2 (by
        rw [pyLower, List.mem_map]
        exact ⟨'2', hd, by decide⟩)
  · rw [hp] at h3
    exact absurd h3 (by simp)

/-- Witness for C10 at the section text `"Engineer jan 2020"` and its
single date token `"jan 2020"`. -/
theorem date_tokens_spec_witness :
    yearOrPresent (s2l "jan 2020") = true ∧
    pyLower (s2l "jan 2020") ∉ monthNamesLower :=
  date_tokens_spec (s2l "Engineer jan 2020")
    (postTokens ⟨s2l "Engineer jan 2020",
      DATE_RANGE_RE_findall (s2l "Engineer jan 2020"), [], []⟩)
    (by decide) (s2l "jan 2020") (by decide)

/-! ## Orchestrator: `parse_resume_from_text` (parser.py lines 273-324) -/

/-- The first value of the mapping whose key satisfies `p`. -/
def firstValWhere (p : List Char → Bool) : List (List Char × List Char) → Option (List Char)
  | [] => none
  | (k, v) :: rest => if p k then some v else firstValWhere p rest

/-- Mapping lookup (`sections["top"]`; keys are unique in our dicts). -/
def lookupVal (k : List Char) : List (List Char × List Char) → Option (List Char)
  | [] => none
  | (k', v) :: rest => if k' = k then some v else lookupVal k rest

/-- The parsed-resume record returned by `parse_resume_from_text`. -/
structure Resume where
  contact : Contact
  summary : List Char
  skills : List (List Char)
  education : List EduEntry
  experience : List ExpEntry
  raw_sections : List (List Char × List Char)
deriving DecidableEq

/-- `parse_resume_from_text` (parser.py lines 273-324): clean, segment,
extract contact from the full text, pick the skills/education/experience
sections by key substring (first match, falling back as the code does),
pick the summary, assemble the record. A total function by construction:
every heuristic miss yields an empty list or empty string. -/
def parse_resume_from_text (text : List Char) : Resume :=
  let t := clean_text text
  let sections := split_sections t
  let education_section := (firstValWithSub (s2l "educat") sections).getD []
  let experience_section := (firstValWithSub (s2l "experi") sections).getD []
  let summary1 := (firstValWhere
    (fun k => containsSub (s2l "summary") k || containsSub (s2l "objective") k) sections).getD []
  { contact := extract_contact t
  , summary :=
      if summary1.isEmpty then
        match lookupVal (s2l "top") sections with
        | some tv => joinNL ((pySplitlines tv).take 3)
        | none => []
      else summary1
  , skills := extract_skills (skillsTextOf text)
  , education := if education_section.isEmpty then [] else extract_education education_section
  , experience := if experience_section.isEmpty then [] else parse_experience experience_section
  , raw_sections := sections }

-- sanity check: the shape of a small end-to-end parse
example : (parse_resume_from_text (s2l "experience\nengineer 2020")).raw_sections
    = [(s2l "experience", s2l "engineer 2020")] := by decide
example : (parse_resume_from_text (s2l "experience\nengineer 2020")).education = [] := by decide
example : ((parse_resume_from_text (s2l "experience\nengineer 2020")).experience.map
    ExpEntry.title_company) = [s2l "engineer 2020"] := by decide

theorem firstValWithSub_eq_none (needle : List Char) :
    ∀ d : List (List Char × List Char),
      (∀ kv ∈ d, containsSub needle kv.1 = false) → firstValWithSub needle d = none := by
  intro d
  induction d with
  | nil => intro _; rfl
  | cons kv rest ih =>
    intro h
    obtain ⟨k, v⟩ := kv
    rw [firstValWithSub]
    rw [h (k, v) (List.mem_cons_self _ _)]
    simp only [Bool.false_eq_true, if_false]
    exact ih fun kv2 hm => h kv2 (List.mem_cons_of_mem _ hm)

/-- C9: `parse_resume_from_text` is a total function of its input (by
construction of this embedding — no exception path exists in the modelled
code), and heuristic misses yield empty structures: when no section key
contains `"educat"` the education field is the empty sequence, and when no
section key contains `"experi"` the experience field is the empty
sequence. -/
theorem parse_resume_total_empty_on_miss (text : List Char) :
    ((∀ kv ∈ split_sections (clean_text text), containsSub (s2l "educat") kv.1 = false) →
      (parse_resume_from_text text).education = []) ∧
    ((∀ kv ∈ split_sections (clean_text text), containsSub (s2l "experi") kv.1 = false) →
      (parse_resume_from_text text).experience = []) := by
  constructor
  · intro h
    show (if ((firstValWithSub (s2l "educat") (split_sections (clean_text text))).getD []).isEmpty
        then [] else _) = []
    rw [firstValWithSub_eq_none _ _ h]
    rfl
  · intro h
    show (if ((firstValWithSub (s2l "experi") (split_sections (clean_text text))).getD []).isEmpty
        then [] else _) = []
    rw [firstValWithSub_eq_none _ _ h]
    rfl

/-- Witness for C9 at `"hello"`, which has no sections with an education
or experience key. -/
theorem parse_resume_total_empty_on_miss_witness :
    (parse_resume_from_text (s2l "hello")).education = [] ∧
    (parse_resume_from_text (s2l "hello")).experience = [] :=
  ⟨(parse_resume_total_empty_on_miss (s2l "hello")).1 (by decide),
   (parse_resume_total_empty_on_miss (s2l "hello")).2 (by decide)⟩

/-! ## JSON export round trip: `to_json` (utils.py lines 10-11)

`to_json` is `json.dumps(parsed, ...)`; re-parsing is `json.loads`. The
Python value universe reachable from a `ParsedResume` is strings, lists,
tuples (the `dates` field holds `re.findall` group tuples) and string-keyed
dicts. `json.dumps` serializes both tuples and lists as JSON arrays, and
`json.loads` reads every array back as a list — that is the entire content
of the round trip at this granularity (string escaping round-trips
exactly and is not modelled). -/

/-- A JSON document fragment (strings, arrays, objects). -/
inductive JVal where
  | jstr : List Char → JVal
  | jarr : List JVal → JVal
  | jobj : List (List Char × JVal) → JVal

/-- A Python value reachable from a parsed resume: string, list, tuple,
or string-keyed dict. Tuples and lists are distinct and compare unequal
(as in Python). -/
inductive PyVal where
  | pstr : List Char → PyVal
  | plist : List PyVal → PyVal
  | ptup : List PyVal → PyVal
  | pdict : List (List Char × PyVal) → PyVal

mutual
/-- `json.dumps`: tuples and lists both serialize to JSON arrays. -/
def pyDumps : PyVal → JVal
  | .pstr s => .jstr s
  | .plist l => .jarr (pyDumpsList l)
  | .ptup l => .jarr (pyDumpsList l)
  | .pdict l => .jobj (pyDumpsKV l)
/-- `json.dumps` on a list of values. -/
def pyDumpsList : List PyVal → List JVal
  | [] => []
  | v :: vs => pyDumps v :: pyDumpsList vs
/-- `json.dumps` on dict items. -/
def pyDumpsKV : List (List Char × PyVal) → List (List Char × JVal)
  | [] => []
  | (k, v) :: vs => (k, pyDumps v) :: pyDumpsKV vs
end

mutual
/-- `json.loads`: every JSON array parses to a Python list. -/
def pyLoads : JVal → PyVal
  | .jstr s => .pstr s
  | .jarr l => .plist (pyLoadsList l)
  | .jobj l => .pdict (pyLoadsKV l)
/-- `json.loads` on an array's elements. -/
def pyLoadsList : List JVal → List PyVal
  | [] => []
  | v :: vs => pyLoads v :: pyLoadsList vs
/-- `json.loads` on object members. -/
def pyLoadsKV : List (List Char × JVal) → List (List Char × PyVal)
  | [] => []
  | (k, v) :: vs => (k, pyLoads v) :: pyLoadsKV vs
end

mutual
/-- Replace every tuple by the list with the same elements. -/
def pyDetuple : PyVal → PyVal
  | .pstr s => .pstr s
  | .plist l => .plist (pyDetupleList l)
  | .ptup l => .plist (pyDetupleList l)
  | .pdict l => .pdict (pyDetupleKV l)
/-- `pyDetuple` on a list of values. -/
def pyDetupleList : List PyVal → List PyVal
  | [] => []
  | v :: vs => pyDetuple v :: pyDetupleList vs
/-- `pyDetuple` on dict items. -/
def pyDetupleKV : List (List Char × PyVal) → List (List Char × PyVal)
  | [] => []
  | (k, v) :: vs => (k, pyDetuple v) :: pyDetupleKV vs
end

/-- A list of strings as a Python list value. -/
def strListPy (l : List (List Char)) : PyVal := .plist (l.map .pstr)

/-- The contact dict, with keys in the source's insertion order. -/
def contactToPy (c : Contact) : PyVal :=
  .pdict [(s2l "emails", strListPy c.emails), (s2l "phones", strListPy c.phones),
          (s2l "linkedin", strListPy c.linkedin)]

/-- An education entry dict. -/
def eduToPy (e : EduEntry) : PyVal :=
  .pdict [(s2l "degree", .pstr e.degree), (s2l "institution", .pstr e.institution),
          (s2l "year", .pstr e.year), (s2l "raw", .pstr e.raw)]

/-- An experience entry dict; `dates` is a list of `re.findall` group
tuples. -/
def expToPy (e : ExpEntry) : PyVal :=
  .pdict [(s2l "title_company", .pstr e.title_company),
          (s2l "dates", .plist (e.dates.map fun t => .ptup (t.map .pstr))),
          (s2l "details", strListPy e.details),
          (s2l "date_tokens", strListPy e.date_tokens)]

/-- The full `ParsedResume` dict passed to `to_json`, with the key order
of the source's literal. -/
def resumeToPy (r : Resume) : PyVal :=
  .pdict [(s2l "contact", contactToPy r.contact),
          (s2l "summary", .pstr r.summary),
          (s2l "skills", strListPy r.skills),
          (s2l "education", .plist (r.education.map eduToPy)),
          (s2l "experience", .plist (r.experience.map expToPy)),
          (s2l "raw_sections", .pdict (r.raw_sections.map fun kv => (kv.1, .pstr kv.2)))]

theorem pyDumps_pstr (s : List Char) : pyDumps (.pstr s) = .jstr s := rfl
theorem pyDumps_plist (l : List PyVal) : pyDumps (.plist l) = .jarr (pyDumpsList l) := rfl
theorem pyDumps_ptup (l : List PyVal) : pyDumps (.ptup l) = .jarr (pyDumpsList l) := rfl
theorem pyDumps_pdict (l : List (List Char × PyVal)) :
    pyDumps (.pdict l) = .jobj (pyDumpsKV l) := rfl
theorem pyDumpsList_nil : pyDumpsList [] = [] := rfl
theorem pyDumpsList_cons (v : PyVal) (vs : List PyVal) :
    pyDumpsList (v :: vs) = pyDumps v :: pyDumpsList vs := rfl
theorem pyDumpsKV_nil : pyDumpsKV [] = [] := rfl
theorem pyDumpsKV_cons (k : List Char) (v : PyVal) (vs : List (List Char × PyVal)) :
    pyDumpsKV ((k, v) :: vs) = (k, pyDumps v) :: pyDumpsKV vs := rfl

theorem pyLoads_jstr (s : List Char) : pyLoads (.jstr s) = .pstr s := rfl
theorem pyLoads_jarr (l : List JVal) : pyLoads (.jarr l) = .plist (pyLoadsList l) := rfl
theorem pyLoads_jobj (l : List (List Char × JVal)) :
    pyLoads (.jobj l) = .pdict (pyLoadsKV l) := rfl
theorem pyLoadsList_nil : pyLoadsList [] = [] := rfl
theorem pyLoadsList_cons (v : JVal) (vs : List JVal) :
    pyLoadsList (v :: vs) = pyLoads v :: pyLoadsList vs := rfl
theorem pyLoadsKV_nil : pyLoadsKV [] = [] := rfl
theorem pyLoadsKV_cons (k : List Char) (v : JVal) (vs : List (List Char × JVal)) :
    pyLoadsKV ((k, v) :: vs) = (k, pyLoads v) :: pyLoadsKV vs := rfl

theorem pyDetuple_pstr (s : List Char) : pyDetuple (.pstr s) = .pstr s := rfl
theorem pyDetuple_plist (l : List PyVal) :
    pyDetuple (.plist l) = .plist (pyDetupleList l) := rfl
theorem pyDetuple_ptup (l : List PyVal) :
    pyDetuple (.ptup l) = .plist (pyDetupleList l) := rfl
theorem pyDetuple_pdict (l : List (List Char × PyVal)) :
    pyDetuple (.pdict l) = .pdict (pyDetupleKV l) := rfl
theorem pyDetupleList_nil : pyDetupleList [] = [] := rfl
theorem pyDetupleList_cons (v : PyVal) (vs : List PyVal) :
    pyDetupleList (v :: vs) = pyDetuple v :: pyDetupleList vs := rfl
theorem pyDetupleKV_nil : pyDetupleKV [] = [] := rfl
theorem pyDetupleKV_cons (k : List Char) (v : PyVal) (vs : List (List Char × PyVal)) :
    pyDetupleKV ((k, v) :: vs) = (k, pyDetuple v) :: pyDetupleKV vs := rfl

theorem round_pstr_list (l : List (List Char)) :
    pyLoadsList (pyDumpsList (l.map PyVal.pstr)) = l.map PyVal.pstr := by
  induction l with
  | nil => rfl
  | cons x rest ih => simp [pyDumpsList, pyLoadsList, pyDumps, pyLoads, ih]

theorem detuple_pstr_list (l : List (List Char)) :
    pyDetupleList (l.map PyVal.pstr) = l.map PyVal.pstr := by
  induction l with
  | nil => rfl
  | cons x rest ih => simp [pyDetupleList, pyDetuple, ih]

theorem round_strListPy (l : List (List Char)) :
    pyLoads (pyDumps (strListPy l)) = strListPy l := by
  simp [strListPy, pyDumps, pyLoads, round_pstr_list]

theorem detuple_strListPy (l : List (List Char)) :
    pyDetuple (strListPy l) = strListPy l := by
  simp [strListPy, pyDetuple, detuple_pstr_list]

theorem round_dates (ds : List (List (List Char))) :
    pyLoadsList (pyDumpsList (ds.map fun t => PyVal.ptup (t.map PyVal.pstr)))
      = ds.map fun t => PyVal.plist (t.map PyVal.pstr) := by
  induction ds with
  | nil => rfl
  | cons t rest ih =>
    simp [pyDumpsList, pyLoadsList, pyDumps, pyLoads, ih, round_pstr_list]

theorem detuple_dates (ds : List (List (List Char))) :
    pyDetupleList (ds.map fun t => PyVal.ptup (t.map PyVal.pstr))
      = ds.map fun t => PyVal.plist (t.map PyVal.pstr) := by
  induction ds with
  | nil => rfl
  | cons t rest ih => simp [pyDetupleList, pyDetuple, ih, detuple_pstr_list]

theorem round_edu_list (es : List EduEntry) :
    pyLoadsList (pyDumpsList (es.map eduToPy)) = es.map eduToPy := by
  induction es with
  | nil => rfl
  | cons e rest ih =>
    simp [pyDumpsList, pyLoadsList, eduToPy, pyDumps, pyLoads,
      pyDumpsKV, pyLoadsKV, ih]

theorem detuple_edu_list (es : List EduEntry) :
    pyDetupleList (es.map eduToPy) = es.map eduToPy := by
  induction es with
  | nil => rfl
  | cons e rest ih =>
    simp [pyDetupleList, eduToPy, pyDetuple, pyDetupleKV, ih]

theorem round_exp_list (es : List ExpEntry) :
    pyLoadsList (pyDumpsList (es.map expToPy))
      = pyDetupleList (es.map expToPy) := by
  induction es with
  | nil => rfl
  | cons e rest ih =>
    simp only [List.map_cons, pyDumpsList_cons, pyLoadsList_cons, pyDetupleList_cons,
      expToPy, strListPy, pyDumps_pdict, pyDumps_pstr, pyDumps_plist,
      pyLoads_jobj, pyLoads_jstr, pyLoads_jarr,
      pyDetuple_pdict, pyDetuple_pstr, pyDetuple_plist,
      pyDumpsKV_cons, pyDumpsKV_nil, pyLoadsKV_cons, pyLoadsKV_nil,
      pyDetupleKV_cons, pyDetupleKV_nil,
      ih, round_dates, detuple_dates, round_pstr_list, detuple_pstr_list]

theorem round_raw_sections (l : List (List Char × List Char)) :
    pyLoadsKV (pyDumpsKV (l.map fun kv => (kv.1, PyVal.pstr kv.2)))
      = l.map fun kv => (kv.1, PyVal.pstr kv.2) := by
  induction l with
  | nil => rfl
  | cons kv rest ih => simp [pyDumpsKV, pyLoadsKV, pyDumps, pyLoads, ih]

theorem detuple_raw_sections (l : List (List Char × List Char)) :
    pyDetupleKV (l.map fun kv => (kv.1, PyVal.pstr kv.2))
      = l.map fun kv => (kv.1, PyVal.pstr kv.2) := by
  induction l with
  | nil => rfl
  | cons kv rest ih => simp [pyDetupleKV, pyDetuple, ih]

/-- C3 (amended): serializing a parsed resume to JSON and re-parsing
yields the original structure with every `dates` tuple read back as a
list; all other fields are recovered exactly. Equality with the original
therefore fails exactly on the experience entries' `dates` fields, which
hold `re.findall` tuples. -/
theorem json_round_trip_detuples (text : List Char) :
    pyLoads (pyDumps (resumeToPy (parse_resume_from_text text)))
      = pyDetuple (resumeToPy (parse_resume_from_text text)) := by
  simp only [resumeToPy, contactToPy, strListPy,
    pyDumps_pdict, pyDumps_pstr, pyDumps_plist,
    pyLoads_jobj, pyLoads_jstr, pyLoads_jarr,
    pyDetuple_pdict, pyDetuple_pstr, pyDetuple_plist,
    pyDumpsKV_cons, pyDumpsKV_nil, pyLoadsKV_cons, pyLoadsKV_nil,
    pyDetupleKV_cons, pyDetupleKV_nil,
    round_pstr_list, detuple_pstr_list, round_edu_list, detuple_edu_list,
    round_exp_list, round_raw_sections, detuple_raw_sections]

/-- Dict member access on a `PyVal`. -/
def pdictGet (k : List Char) : PyVal → Option PyVal
  | .pdict l => lookupPyKV k l
  | _ => none
where
  /-- Association lookup among dict items. -/
  lookupPyKV (k : List Char) : List (List Char × PyVal) → Option PyVal
    | [] => none
    | (k', v) :: rest => if k' = k then some v else lookupPyKV k rest

/-- List index access on a `PyVal`. -/
def plistGet (i : Nat) : PyVal → Option PyVal
  | .plist l => l[i]?
  | _ => none

/-- Is the value a tuple? -/
def isTup : PyVal → Bool
  | .ptup _ => true
  | _ => false

/-- The first `dates` cell of the first experience entry. -/
def probeDates (v : PyVal) : Option PyVal :=
  ((((pdictGet (s2l "experience") v).bind (plistGet 0)).bind
      (pdictGet (s2l "dates"))).bind (plistGet 0))

/-- C3 (counterexample): for the input `"experience\nengineer 2020"` the
parsed resume has one experience entry whose `dates` holds one
`re.findall` group tuple; the JSON round trip returns it as a list, so the
round-tripped structure is not equal to the original. -/
theorem json_round_trip_not_id :
    pyLoads (pyDumps (resumeToPy (parse_resume_from_text (s2l "experience\nengineer 2020"))))
      ≠ resumeToPy (parse_resume_from_text (s2l "experience\nengineer 2020")) := by
  intro h
  have e1 : (probeDates (pyLoads (pyDumps (resumeToPy
      (parse_resume_from_text (s2l "experience\nengineer 2020")))))).map isTup
      = some false := by decide
  have e2 : (probeDates (resumeToPy
      (parse_resume_from_text (s2l "experience\nengineer 2020")))).map isTup
      = some true := by decide
  rw [h, e2] at e1
  exact absurd e1 (by simp)

end SRP
